import Mathlib

/-!
# Verification of the tario TAR stream core

A shallow embedding, in Lean 4, of the stream state machine, slice
utilities, byte buffer and (synchronous specializations of the) read and
write drivers of the `tario` crate, together with proofs of the
behavioural properties claimed in its specification.

Bytes are modelled as `UInt8`, the `usize`/`u64` counters as `Nat`
(no transition ever makes them overflow: all counters are bounded by
block or entry sizes), fallible Rust code as `Except`, and panics as a
distinguished `Err.panicked` outcome.  Driver loops take an explicit
fuel argument (`none` = fuel exhausted); the state-machine loop
`take_until`, whose termination is itself one of the verified claims,
is defined by well-founded recursion on an explicit measure.
-/

set_option maxRecDepth 100000

deriving instance DecidableEq for Except

namespace Tario

/-- `BLOCK_SIZE` from `shared/block.rs`: a TAR byte stream is a series of
512-byte blocks. -/
def BLOCK_SIZE : Nat := 512

/-- The error kinds of `std::io::ErrorKind` that this crate produces. -/
inductive IoKind where
  | invalidData
  | unexpectedEof
  | writeZero
  | unsupported
  deriving DecidableEq, Repr

/-- Unified error type covering `shared::state::Error`, `read::ReadError`,
`write::WriteError`, the checksum failure of `Block::as_header` and the
octal-field parse failure of the header codec.  Rust panics
(`assert!`/`unwrap`/`expect`) are modelled by the distinguished
`panicked` variant. -/
inductive Err where
  /-- `state::Error::ExpectingHeader` -/
  | expectingHeader
  /-- `state::Error::ExpectingEmptyBlock` -/
  | expectingEmptyBlock
  /-- `state::Error::Eof` ("cannot process data after eof") -/
  | eofData
  /-- `read` driver: source returned 0 bytes in a non-terminal state. -/
  | unexpectedEofR
  /-- `write::WriteError::WriteZero` -/
  | writeZero
  /-- `write::WriteError::OverlappingEntry` -/
  | overlappingEntry
  /-- `Block::as_header`: checksum mismatch. -/
  | checksum
  /-- header codec: malformed octal field. -/
  | headerField
  /-- a Rust panic (`assert!`, `unwrap`, `expect`, `unreachable!`). -/
  | panicked
  deriving DecidableEq, Repr

/-- The `kind()` mapping of the crate's error types onto
`std::io::ErrorKind` (`state::Error::kind`, `ReadError::kind`,
`WriteError::kind`, and the kinds used literally in `read/mod.rs` and
`block.rs`).  `panicked` is not an I/O error; it is given `unsupported`'s
complement arbitrarily here and never relied upon. -/
def Err.kind : Err → IoKind
  | .expectingHeader => .invalidData
  | .expectingEmptyBlock => .invalidData
  | .eofData => .invalidData
  | .unexpectedEofR => .unexpectedEof
  | .writeZero => .writeZero
  | .overlappingEntry => .unsupported
  | .checksum => .invalidData
  | .headerField => .invalidData
  | .panicked => .invalidData

/-! ## The header codec (external collaborator)

Modelled from the spec: the header encoder/decoder itself is an external
collaborator (the `tar` crate); the spec describes it as a black-box
codec over USTAR 512-byte header blocks exposing `as_bytes`, `size`,
`entry_size` (= `size`), `cksum` and `path_bytes`, whose numeric fields
are NUL/space-terminated ASCII octal. -/

/-- Modelled from the spec: a header is its 512-byte USTAR block; every
accessor below is a function of these bytes. -/
structure Header where
  bytes : List UInt8
  deriving DecidableEq, Repr

/-- Modelled from the spec: parse a list of ASCII octal digits. -/
def parseOctalDigits : List UInt8 → Option Nat
  | [] => some 0
  | b :: bs =>
    if 48 ≤ b.toNat ∧ b.toNat ≤ 55 then
      (parseOctalDigits bs).map (fun n => n * 8 + (b.toNat - 48))
    else
      none

/-- Modelled from the spec: octal fields are terminated by NUL or space. -/
def truncateField (bs : List UInt8) : List UInt8 :=
  bs.takeWhile (fun b => !(b == 0 || b == 32))

/-- Modelled from the spec: numeric header fields are ASCII octal,
most-significant digit first, NUL/space terminated; an empty field
denotes zero. -/
def parseOctal (bs : List UInt8) : Option Nat :=
  go (truncateField bs) 0
where
  go : List UInt8 → Nat → Option Nat
    | [], acc => some acc
    | b :: bs, acc =>
      if 48 ≤ b.toNat ∧ b.toNat ≤ 55 then go bs (acc * 8 + (b.toNat - 48))
      else none

/-- Modelled from the spec: the `size` field occupies bytes 124..136 of
a USTAR header block. -/
def Header.size? (h : Header) : Except Err Nat :=
  match parseOctal ((h.bytes.drop 124).take 12) with
  | some n => .ok n
  | none => .error .headerField

/-- Modelled from the spec: `entry_size` equals `size` for the entry
types handled by the core. -/
def Header.entry_size (h : Header) : Except Err Nat :=
  h.size?

/-- Modelled from the spec: the `cksum` field occupies bytes 148..156 of
a USTAR header block. -/
def Header.cksum (h : Header) : Except Err Nat :=
  match parseOctal ((h.bytes.drop 148).take 8) with
  | some n => .ok n
  | none => .error .headerField

/-- `Header::as_bytes`: the 512-byte representation. -/
def Header.as_bytes (h : Header) : List UInt8 :=
  h.bytes

/-- Rust's `u64::next_multiple_of`: the smallest multiple of `k` that is
greater than or equal to `n` (for positive `k`). -/
def nextMultipleOf (n k : Nat) : Nat :=
  ((n + k - 1) / k) * k

/-- `calc_cksum` from `shared/block.rs`: sum of all block bytes outside
the checksum field `[148, 156)`, plus `8 * 32` (the field counted as
eight spaces). -/
def calc_cksum (bytes : List UInt8) : Nat :=
  ((bytes.take 148) ++ (bytes.drop 156)).foldl (fun a b => a + b.toNat) 0 + 8 * 32

/-- `Block::as_header` from `shared/block.rs`: reinterpret a 512-byte
block as a header, failing with `InvalidData` when the stored checksum
disagrees with the computed one.  (`Block::from_bytes` panics when the
slice is not exactly 512 bytes.) -/
def as_header (block : List UInt8) : Except Err Header :=
  if block.length = BLOCK_SIZE then
    match parseOctal ((block.drop 148).take 8) with
    | none => .error .headerField
    | some expected =>
      if expected = calc_cksum block then .ok ⟨block⟩ else .error .checksum
  else
    .error .panicked

/-! ## The stream state machine (`shared/state.rs`) -/

/-- `shared::state::State`: a type that can validate and represent any
point in a TAR byte stream. -/
inductive State where
  | expectingHeader
  | receivingHeader (rem : Nat) (is_empty : Bool)
  | receivedHeader
  | receivingData (rem : Nat)
  | receivedData
  | aligningData (rem : Nat)
  | alignedData
  | receivingEof (rem : Nat)
  | receivedEof
  deriving DecidableEq, Repr

instance : Inhabited State := ⟨.expectingHeader⟩

/-- `State::is_terminal`: true only in `ReceivedEof` and
`ReceivingEof(0)`. -/
def State.is_terminal : State → Bool
  | .receivedEof => true
  | .receivingEof 0 => true
  | _ => false

/-- `State::is_marker`: the five zero-byte transitions. -/
def State.is_marker : State → Bool
  | .expectingHeader => true
  | .receivedHeader => true
  | .receivedData => true
  | .alignedData => true
  | .receivedEof => true
  | _ => false

/-- `State::next`: transition to the next state, returning the new state
and the number of bytes read.  An empty buffer still leads to a state
transition around a marker. -/
def State.next (s : State) (buf : List UInt8) (header : Option Header) :
    Except Err (State × Nat) :=
  match s with
  | .expectingHeader => .ok (.receivingHeader BLOCK_SIZE true, 0)
  | .receivingHeader rem is_empty =>
    let len := min rem buf.length
    let empty := (buf.take len).all (· == 0)
    let rem' := rem - len
    let is_empty' := is_empty && empty
    if rem' = 0 then
      if is_empty' then
        -- Received first of two empty blocks that signify EOF.
        .ok (.receivingEof BLOCK_SIZE, len)
      else
        -- Received header of next entry. Assume it is valid.
        .ok (.receivedHeader, len)
    else
      .ok (.receivingHeader rem' is_empty', len)
  | .receivedHeader =>
    match header with
    | none => .error .panicked -- assert!(header.is_some())
    | some h =>
      match h.entry_size with
      | .error e => .error e
      | .ok rem => .ok (.receivingData rem, 0)
  | .receivingData rem =>
    let len := min rem buf.length
    let rem' := rem - len
    if rem' = 0 then .ok (.receivedData, len) else .ok (.receivingData rem', len)
  | .receivedData =>
    match header with
    | none => .error .panicked -- assert!(header.is_some())
    | some h =>
      match h.entry_size with
      | .error e => .error e
      | .ok rem =>
        let align := nextMultipleOf rem BLOCK_SIZE - rem
        .ok (.aligningData align, 0)
  | .aligningData rem =>
    let len := min rem buf.length
    let rem' := rem - len
    if rem' = 0 then .ok (.alignedData, len) else .ok (.aligningData rem', len)
  | .alignedData => .ok (.expectingHeader, 0)
  | .receivingEof rem =>
    let len := min rem buf.length
    let empty := (buf.take len).all (· == 0)
    let rem' := rem - len
    if !empty then
      -- Received malformed data
      .error .expectingEmptyBlock
    else if rem' = 0 then
      .ok (.receivedEof, len)
    else
      .ok (.receivingEof rem', len)
  | .receivedEof =>
    -- Received malformed data
    .error .eofData

/-- `State::take_marker`: assert the state is a marker, then apply
`next` once with an empty buffer. -/
def State.take_marker (s : State) (header : Option Header) : Except Err State :=
  if s.is_marker then
    match s.next [] header with
    | .error e => .error e
    | .ok (s', _) => .ok s'
  else
    .error .panicked -- assert!(self.is_marker())

/-- The measure that makes the `take_until` loop of `shared/state.rs`
terminate: along every transition that consumes no byte from a non-empty
buffer, `rank` strictly decreases (see `rank_decreases`), and every
other loop iteration consumes at least one byte. -/
def rank : State → Nat
  | .receivingHeader 0 _ => 7
  | .receivingHeader _ _ => 0
  | .receivedHeader => 6
  | .receivingData 0 => 5
  | .receivingData _ => 0
  | .receivedData => 4
  | .aligningData 0 => 3
  | .aligningData _ => 0
  | .alignedData => 2
  | .expectingHeader => 1
  | .receivingEof 0 => 1
  | .receivingEof _ => 0
  | .receivedEof => 0

/-- Invert an `Except.ok` of a pair. -/
theorem ok_pair_inj {ε α β : Type} {a a' : α} {b b' : β}
    (h : (Except.ok (a, b) : Except ε (α × β)) = .ok (a', b')) : a = a' ∧ b = b' := by
  injection h with h
  exact ⟨congrArg Prod.fst h, congrArg Prod.snd h⟩

theorem rank_le_seven (s : State) : rank s ≤ 7 := by
  cases s with
  | receivingHeader rem b => cases rem <;> simp [rank]
  | receivingData rem => cases rem <;> simp [rank]
  | aligningData rem => cases rem <;> simp [rank]
  | receivingEof rem => cases rem <;> simp [rank]
  | _ => simp [rank]

theorem next_le_length {s : State} {buf : List UInt8} {hdr : Option Header}
    {s' : State} {n : Nat} (h : s.next buf hdr = .ok (s', n)) : n ≤ buf.length := by
  cases s with
  | expectingHeader =>
    simp only [State.next] at h
    obtain ⟨-, h2⟩ := h
    omega
  | receivingHeader rem b =>
    simp only [State.next] at h
    repeat' split at h
    all_goals (obtain ⟨-, h2⟩ := h; omega)
  | receivedHeader =>
    cases hdr with
    | none => simp [State.next] at h
    | some hd =>
      cases he : hd.entry_size with
      | error e => simp [State.next, he] at h
      | ok k =>
        simp only [State.next, he] at h
        obtain ⟨-, h2⟩ := h
        omega
  | receivingData rem =>
    simp only [State.next] at h
    split at h
    all_goals (obtain ⟨-, h2⟩ := h; omega)
  | receivedData =>
    cases hdr with
    | none => simp [State.next] at h
    | some hd =>
      cases he : hd.entry_size with
      | error e => simp [State.next, he] at h
      | ok k =>
        simp only [State.next, he] at h
        obtain ⟨-, h2⟩ := h
        omega
  | aligningData rem =>
    simp only [State.next] at h
    split at h
    all_goals (obtain ⟨-, h2⟩ := h; omega)
  | alignedData =>
    simp only [State.next] at h
    obtain ⟨-, h2⟩ := h
    omega
  | receivingEof rem =>
    simp only [State.next] at h
    split at h
    · simp at h
    · split at h
      all_goals (obtain ⟨-, h2⟩ := h; omega)
  | receivedEof => simp [State.next] at h

/-- Zero-byte transitions from a non-empty buffer strictly decrease
`rank`: the marker chain cannot cycle without consuming a byte. -/
theorem rank_decreases {s : State} {buf : List UInt8} {hdr : Option Header}
    {s' : State} (h : s.next buf hdr = .ok (s', 0)) (hbuf : buf ≠ []) :
    rank s' < rank s := by
  have hlen : 0 < buf.length := List.length_pos.mpr hbuf
  cases s with
  | expectingHeader =>
    simp only [State.next] at h
    obtain ⟨h1, -⟩ := ok_pair_inj h
    subst h1
    decide
  | receivingHeader rem b =>
    simp only [State.next] at h
    have hrem : rem = 0 := by
      by_contra hne
      have hne' : min rem buf.length ≠ 0 := by omega
      split at h <;> (try split at h) <;> simp_all
    subst hrem
    simp only [Nat.zero_min, List.take_zero, List.all_nil, Nat.zero_sub,
      Bool.and_true, reduceIte] at h
    split at h <;> (obtain ⟨h1, -⟩ := ok_pair_inj h; subst h1; cases b <;> decide)
  | receivedHeader =>
    cases hdr with
    | none => simp [State.next] at h
    | some hd =>
      cases he : hd.entry_size with
      | error e => simp [State.next, he] at h
      | ok k =>
        simp only [State.next, he] at h
        obtain ⟨h1, -⟩ := ok_pair_inj h
        subst h1
        cases k <;> simp [rank]
  | receivingData rem =>
    simp only [State.next] at h
    have hrem : rem = 0 := by
      by_contra hne
      have hne' : min rem buf.length ≠ 0 := by omega
      split at h <;> simp_all
    subst hrem
    simp only [Nat.zero_min, Nat.zero_sub, reduceIte] at h
    obtain ⟨h1, -⟩ := ok_pair_inj h
    subst h1
    decide
  | receivedData =>
    cases hdr with
    | none => simp [State.next] at h
    | some hd =>
      cases he : hd.entry_size with
      | error e => simp [State.next, he] at h
      | ok k =>
        simp only [State.next, he] at h
        obtain ⟨h1, -⟩ := ok_pair_inj h
        subst h1
        cases hk : nextMultipleOf k BLOCK_SIZE - k <;> simp [rank, hk]
  | aligningData rem =>
    simp only [State.next] at h
    have hrem : rem = 0 := by
      by_contra hne
      have hne' : min rem buf.length ≠ 0 := by omega
      split at h <;> simp_all
    subst hrem
    simp only [Nat.zero_min, Nat.zero_sub, reduceIte] at h
    obtain ⟨h1, -⟩ := ok_pair_inj h
    subst h1
    decide
  | alignedData =>
    simp only [State.next] at h
    obtain ⟨h1, -⟩ := ok_pair_inj h
    subst h1
    decide
  | receivingEof rem =>
    simp only [State.next] at h
    have hrem : rem = 0 := by
      by_contra hne
      have hne' : min rem buf.length ≠ 0 := by omega
      split at h
      · simp_all
      · split at h <;> simp_all
    subst hrem
    simp only [Nat.zero_min, List.take_zero, List.all_nil, Nat.zero_sub,
      Bool.not_true, reduceIte] at h
    obtain ⟨h1, -⟩ := ok_pair_inj h
    subst h1
    decide
  | receivedEof =>
    simp [State.next] at h

/-- `State::take_until`: transition repeatedly on the same buffer until
a stop state is reached or the buffer is exhausted; `next` is called at
least once.  Defined by well-founded recursion on the measure whose
decrease is proved by `rank_decreases`. -/
def takeUntilGo (stop : List State) (hdr : Option Header) (s : State)
    (buf : List UInt8) : Except Err (State × Nat) :=
  match h : s.next buf hdr with
  | .error e => .error e
  | .ok (s', n) =>
    if s' ∈ stop ∨ buf.length ≤ n then
      .ok (s', n)
    else
      match takeUntilGo stop hdr s' (buf.drop n) with
      | .error e => .error e
      | .ok (s'', n') => .ok (s'', n + n')
termination_by 8 * buf.length + rank s
decreasing_by
  rename_i hcond
  push_neg at hcond
  obtain ⟨hstop, hlt⟩ := hcond
  simp only [List.length_drop]
  rcases Nat.eq_zero_or_pos n with hn | hn
  · subst hn
    have hbuf : buf ≠ [] := by
      intro hb; subst hb; simp at hlt
    have := rank_decreases h hbuf
    omega
  · have := next_le_length h
    have := rank_le_seven s'
    have := rank_le_seven s
    omega

/-- The `take_until` loop with an explicit iteration budget.  Each
iteration of the loop in `shared/state.rs` either consumes at least one
byte or strictly decreases `rank`, so `8 * buf.length + 8` iterations
always suffice (`takeUntilFuel_adequate`). -/
def takeUntilFuel (stop : List State) (hdr : Option Header) :
    Nat → State → List UInt8 → Option (Except Err (State × Nat))
  | 0, _, _ => none
  | fuel + 1, s, buf =>
    match s.next buf hdr with
    | .error e => some (.error e)
    | .ok (s', n) =>
      if s' ∈ stop ∨ buf.length ≤ n then
        some (.ok (s', n))
      else
        (takeUntilFuel stop hdr fuel s' (buf.drop n)).map
          (Except.map (fun r => (r.1, n + r.2)))

/-- `State::take_until`: transition states until one of the given stop
states is reached or the buffer is exhausted, and return the state and
number of bytes read.  Executable form: the loop is run with the
provably sufficient iteration budget; `take_until_eq_go` shows the
budget is never exhausted, so this agrees with the unbounded loop
`takeUntilGo`. -/
def State.take_until (s : State) (stop : List State) (buf : List UInt8)
    (hdr : Option Header) : Except Err (State × Nat) :=
  match takeUntilFuel stop hdr (8 * buf.length + 8) s buf with
  | some r => r
  | none => .error .panicked -- unreachable, see takeUntilFuel_adequate

/-- The stop states of `State::take_slices`. -/
def stopStates : List State := [.receivedHeader, .receivedEof]

/-- The slice loop of `State::take_slices`, threading the state, the
accumulated count and the `needs_next` flag. -/
def takeSlicesGo (hdr : Option Header) : State → Nat → Bool → List (List UInt8) →
    Except Err (State × Nat)
  | s, cur, needsNext, [] =>
    if needsNext then
      -- Make sure to call next at least once to ensure forward progress.
      match State.take_until s stopStates [] hdr with
      | .error e => .error e
      | .ok (s', n') => .ok (s', cur + n')
    else
      .ok (s, cur)
  | s, cur, needsNext, buf :: rest =>
    if buf = [] then
      takeSlicesGo hdr s cur needsNext rest
    else
      match State.take_until s stopStates buf hdr with
      | .error e => .error e
      | .ok (s', n') =>
        if s' ∈ stopStates then .ok (s', cur + n')
        else takeSlicesGo hdr s' (cur + n') false rest

/-- `State::take_slices`: take each slice in order, transitioning states
as needed; return early if another header is received or EOF is
reached. -/
def State.take_slices (s : State) (slices : List (List UInt8))
    (hdr : Option Header) : Except Err (State × Nat) :=
  takeSlicesGo hdr s 0 true slices

/-! ### Step lemmas for the `take_until` loop -/

theorem takeUntilGo_error {stop : List State} {hdr : Option Header} {s : State}
    {buf : List UInt8} {e : Err} (h : s.next buf hdr = .error e) :
    takeUntilGo stop hdr s buf = .error e := by
  unfold takeUntilGo
  split
  · rename_i e' h'
    rw [h] at h'
    injection h' with h'
    rw [h']
  · rename_i s' n h'
    rw [h] at h'
    exact absurd h' (by simp)

theorem takeUntilGo_stop {stop : List State} {hdr : Option Header} {s : State}
    {buf : List UInt8} {s' : State} {n : Nat} (h : s.next buf hdr = .ok (s', n))
    (hc : s' ∈ stop ∨ buf.length ≤ n) :
    takeUntilGo stop hdr s buf = .ok (s', n) := by
  unfold takeUntilGo
  split
  · rename_i e' h'
    rw [h] at h'
    exact absurd h' (by simp)
  · rename_i s2 n2 h'
    rw [h] at h'
    obtain ⟨h1, h2⟩ := ok_pair_inj h'
    subst h1; subst h2
    rw [if_pos hc]

theorem takeUntilGo_cont {stop : List State} {hdr : Option Header} {s : State}
    {buf : List UInt8} {s' : State} {n : Nat} (h : s.next buf hdr = .ok (s', n))
    (hc : ¬(s' ∈ stop ∨ buf.length ≤ n)) :
    takeUntilGo stop hdr s buf =
      match takeUntilGo stop hdr s' (buf.drop n) with
      | .error e => .error e
      | .ok (s'', n') => .ok (s'', n + n') := by
  conv_lhs => unfold takeUntilGo
  split
  · rename_i e' h'
    rw [h] at h'
    exact absurd h' (by simp)
  · rename_i s2 n2 h'
    rw [h] at h'
    obtain ⟨h1, h2⟩ := ok_pair_inj h'
    subst h1; subst h2
    rw [if_neg hc]

/-- The fuel bound `8 * buf.length + rank s` suffices for the
`take_until` loop: the fueled loop returns the unbounded loop's
result. -/
theorem takeUntilFuel_adequate (stop : List State) (hdr : Option Header) :
    ∀ (k : Nat) (s : State) (buf : List UInt8),
      8 * buf.length + rank s < k →
      takeUntilFuel stop hdr k s buf = some (takeUntilGo stop hdr s buf) := by
  intro k
  induction k with
  | zero => intro s buf h; omega
  | succ k ih =>
    intro s buf hk
    rw [takeUntilFuel]
    cases hn : s.next buf hdr with
    | error e => rw [takeUntilGo_error hn]
    | ok p =>
      obtain ⟨s', n⟩ := p
      dsimp only
      by_cases hc : s' ∈ stop ∨ buf.length ≤ n
      · rw [if_pos hc, takeUntilGo_stop hn hc]
      · rw [if_neg hc, takeUntilGo_cont hn hc]
        have hrec : 8 * (buf.drop n).length + rank s' < k := by
          push_neg at hc
          obtain ⟨-, hlt⟩ := hc
          simp only [List.length_drop]
          rcases Nat.eq_zero_or_pos n with hzero | hpos
          · subst hzero
            have hbuf : buf ≠ [] := by
              intro hb; subst hb; simp at hlt
            have := rank_decreases hn hbuf
            omega
          · have := rank_le_seven s'
            have := rank_le_seven s
            omega
        rw [ih s' (buf.drop n) hrec]
        cases takeUntilGo stop hdr s' (buf.drop n) <;> rfl

/-- `State.take_until` agrees with the unbounded loop `takeUntilGo`: the
fixed budget `8 * buf.length + 8` is never exhausted. -/
theorem take_until_eq_go (s : State) (stop : List State) (buf : List UInt8)
    (hdr : Option Header) :
    s.take_until stop buf hdr = takeUntilGo stop hdr s buf := by
  have h := takeUntilFuel_adequate stop hdr (8 * buf.length + 8) s buf
    (by have := rank_le_seven s; omega)
  rw [State.take_until, h]

/-! ## Claims about the transition function itself -/

/-- C2: From `ReceivingHeader(rem, allZero)`, `next` consumes exactly
`min(rem, len(buf))` bytes, updates the all-zero flag to
`allZero AND all(b == 0 in consumed)`, and when the remaining count
reaches 0 transitions to `ReceivingEof(512)` if the updated flag is true
and to `ReceivedHeader` otherwise; with a positive remaining count it
stays in `ReceivingHeader` with the updated counter and flag. -/
theorem receivingHeader_step (rem : Nat) (allZero : Bool) (buf : List UInt8)
    (hdr : Option Header) :
    State.next (.receivingHeader rem allZero) buf hdr =
      .ok
        (if rem - min rem buf.length = 0 then
          if allZero && ((buf.take (min rem buf.length)).all (· == 0)) then
            .receivingEof 512
          else
            .receivedHeader
        else
          .receivingHeader (rem - min rem buf.length)
            (allZero && ((buf.take (min rem buf.length)).all (· == 0))),
        min rem buf.length) := by
  simp only [State.next, BLOCK_SIZE]
  split
  · split <;> rfl
  · rfl

/-- C3: In `ReceivingEof(rem)`, `next` consumes `min(rem, len(buf))`
bytes and fails with the "expecting empty block" error (of I/O kind
`InvalidData`) whenever any consumed byte is non-zero; it transitions to
`ReceivedEof` exactly when the remaining count reaches 0 with all
consumed bytes zero.  In `ReceivedEof`, any call to `next` fails with
the "cannot process data after eof" error.  Consequently absence is
signalled only after two consecutive 512-byte zero blocks: 1024 zero
bytes drive `ExpectingHeader` to `ReceivedEof`, while a single zero
block followed by a non-zero byte yields the `InvalidData`
"expecting empty block" error. -/
theorem receivingEof_and_receivedEof_step :
    (∀ (rem : Nat) (buf : List UInt8) (hdr : Option Header),
      State.next (.receivingEof rem) buf hdr =
        if (buf.take (min rem buf.length)).all (· == 0) then
          .ok
            (if rem - min rem buf.length = 0 then .receivedEof
             else .receivingEof (rem - min rem buf.length),
             min rem buf.length)
        else
          .error .expectingEmptyBlock) ∧
    Err.kind .expectingEmptyBlock = .invalidData ∧
    (∀ (buf : List UInt8) (hdr : Option Header),
      State.next .receivedEof buf hdr = .error .eofData) ∧
    Err.kind .eofData = .invalidData ∧
    State.take_slices .expectingHeader [List.replicate 1024 0] none =
      .ok (.receivedEof, 1024) ∧
    State.take_slices .expectingHeader [List.replicate 512 0 ++ [1]] none =
      .error .expectingEmptyBlock := by
  refine ⟨?_, rfl, ?_, rfl, by decide, by decide⟩
  · intro rem buf hdr
    simp only [State.next]
    by_cases hemp : (buf.take (min rem buf.length)).all (· == 0)
    · rw [if_pos hemp]
      simp only [hemp, Bool.not_true, Bool.false_eq_true, if_false]
      split <;> rfl
    · rw [if_neg hemp]
      simp only [Bool.not_eq_true'] at hemp
      simp [hemp]
  · intro buf hdr
    rfl

/-- C10: `take_until` terminates for every starting state, stop set,
finite buffer and header argument: the loop, run with the iteration
budget `8 * buf.length + 8`, never exhausts it (each inner iteration
either consumes at least one byte or strictly descends the marker
chain, which cannot cycle without consuming a byte — `rank_decreases`),
and its result is exactly `take_until`'s: the loop always reaches a
stop state, exhausts the buffer, or returns an error. -/
theorem take_until_terminates (s : State) (stop : List State) (buf : List UInt8)
    (hdr : Option Header) :
    takeUntilFuel stop hdr (8 * buf.length + 8) s buf =
      some (s.take_until stop buf hdr) := by
  rw [take_until_eq_go]
  exact takeUntilFuel_adequate stop hdr _ s buf
    (by have := rank_le_seven s; omega)

/-! ## Slice utilities (`shared/slices.rs`)

A list of byte slices plus a trailing remainder is treated as a single
logical byte stream.  `SplitPre` models `slices::Prefix` and `SplitSuf`
models `slices::Suffix` (each a `SplitInner`: a borrowed slice array
plus a one-element remainder array). -/

/-- `slices::Prefix`: full slices plus a trailing partial borrow. -/
structure SplitPre where
  slices : List (List UInt8)
  remainder : List UInt8
  deriving DecidableEq, Repr

/-- `slices::Suffix`: mirror half, remainder first. -/
structure SplitSuf where
  slices : List (List UInt8)
  remainder : List UInt8
  deriving DecidableEq, Repr

/-- `Prefix::iter_buffers`: slices in order, remainder last. -/
def SplitPre.iter_buffers (p : SplitPre) : List (List UInt8) :=
  p.slices ++ [p.remainder]

/-- `Suffix::iter_buffers`: remainder first, then slices. -/
def SplitSuf.iter_buffers (s : SplitSuf) : List (List UInt8) :=
  [s.remainder] ++ s.slices

/-- `bytes_len` over a slice list (the `saturating_add` fold; `Nat`
addition cannot overflow). -/
def bytes_len (bufs : List (List UInt8)) : Nat :=
  bufs.foldl (fun acc b => acc + b.length) 0

/-- `Slices::split_at_byte_offset`: walk the slices subtracting whole
lengths from the offset (the `find_map` loop); at the first slice the
offset falls strictly inside of, split there (`split_at_index`: on a
boundary both remainders are empty, otherwise the slice is torn in two
partial borrows); past the end, the prefix is the whole list
(`as_prefix`) and the suffix is empty. -/
def split_at_byte_offset : List (List UInt8) → Nat → SplitPre × SplitSuf
  | [], _ => (⟨[], []⟩, ⟨[], []⟩)
  | buf :: bufs, offset =>
    if buf.length ≤ offset then
      let (p, s) := split_at_byte_offset bufs (offset - buf.length)
      (⟨buf :: p.slices, p.remainder⟩, s)
    else if offset = 0 then
      (⟨[], []⟩, ⟨buf :: bufs, []⟩)
    else
      (⟨[], buf.take offset⟩, ⟨bufs, buf.drop offset⟩)

/-- `Slices::take_prefix`: the prefix half alone. -/
def take_front (bufs : List (List UInt8)) (len : Nat) : SplitPre :=
  (split_at_byte_offset bufs len).1

theorem bytes_len_go (a : Nat) (l : List (List UInt8)) :
    l.foldl (fun acc b => acc + b.length) a = a + bytes_len l := by
  induction l generalizing a with
  | nil => simp [bytes_len]
  | cons b l ih =>
    simp only [bytes_len, List.foldl_cons, Nat.zero_add]
    rw [ih (a + b.length), ih b.length]
    omega

theorem bytes_len_cons (b : List UInt8) (l : List (List UInt8)) :
    bytes_len (b :: l) = b.length + bytes_len l := by
  simp only [bytes_len, List.foldl_cons, Nat.zero_add]
  exact bytes_len_go b.length l

theorem bytes_len_eq_flatten_length (l : List (List UInt8)) :
    bytes_len l = l.flatten.length := by
  induction l with
  | nil => simp [bytes_len]
  | cons b l ih => rw [bytes_len_cons, List.flatten_cons, List.length_append, ih]

/-- The bytes of the split prefix are the first `n` bytes of the
original stream. -/
theorem flatten_take_front (bufs : List (List UInt8)) (n : Nat) :
    ((take_front bufs n).iter_buffers).flatten = bufs.flatten.take n := by
  induction bufs generalizing n with
  | nil => simp [take_front, split_at_byte_offset, SplitPre.iter_buffers]
  | cons buf bufs ih =>
    by_cases hle : buf.length ≤ n
    · rcases hps : split_at_byte_offset bufs (n - buf.length) with ⟨p, s⟩
      have ihx := ih (n - buf.length)
      rw [take_front, hps] at ihx
      simp only [take_front, split_at_byte_offset, if_pos hle, hps]
      simp only [SplitPre.iter_buffers, List.cons_append, List.flatten_cons] at ihx ⊢
      rw [ihx, List.take_append_eq_append_take, List.take_of_length_le hle]
    · push_neg at hle
      have hne : ¬buf.length ≤ n := by omega
      by_cases h0 : n = 0
      · subst h0
        simp only [take_front, split_at_byte_offset, if_neg hne, reduceIte]
        simp [SplitPre.iter_buffers]
      · simp only [take_front, split_at_byte_offset, if_neg hne, if_neg h0]
        simp only [SplitPre.iter_buffers, List.nil_append, List.flatten_cons,
          List.flatten_nil, List.append_nil, List.flatten_cons]
        rw [List.take_append_of_le_length (by omega)]

/-- The bytes of the split suffix are the bytes of the original stream
from offset `n` on. -/
theorem flatten_split_suf (bufs : List (List UInt8)) (n : Nat) :
    (((split_at_byte_offset bufs n).2).iter_buffers).flatten = bufs.flatten.drop n := by
  induction bufs generalizing n with
  | nil => simp [split_at_byte_offset, SplitSuf.iter_buffers]
  | cons buf bufs ih =>
    by_cases hle : buf.length ≤ n
    · rcases hps : split_at_byte_offset bufs (n - buf.length) with ⟨p, s⟩
      have ihx := ih (n - buf.length)
      rw [hps] at ihx
      simp only [split_at_byte_offset, if_pos hle, hps]
      rw [List.flatten_cons, List.drop_append_eq_append_drop,
        List.drop_of_length_le hle, List.nil_append]
      exact ihx
    · push_neg at hle
      have hne : ¬buf.length ≤ n := by omega
      by_cases h0 : n = 0
      · subst h0
        simp only [split_at_byte_offset, if_neg hne, reduceIte]
        simp [SplitSuf.iter_buffers]
      · simp only [split_at_byte_offset, if_neg hne, if_neg h0]
        simp only [SplitSuf.iter_buffers, List.cons_append, List.nil_append,
          List.flatten_cons]
        rw [List.drop_append_eq_append_drop, Nat.sub_eq_zero_of_le (by omega),
          List.drop_zero]

/-- On slice boundaries, both halves of the split have empty
remainders. -/
theorem split_at_byte_offset_boundary (bufs : List (List UInt8)) (n : Nat)
    (h : ∃ k, n = bytes_len (bufs.take k)) :
    (split_at_byte_offset bufs n).1.remainder = [] ∧
      (split_at_byte_offset bufs n).2.remainder = [] := by
  induction bufs generalizing n with
  | nil => simp [split_at_byte_offset]
  | cons buf bufs ih =>
    obtain ⟨k, hk⟩ := h
    by_cases hle : buf.length ≤ n
    · rcases hps : split_at_byte_offset bufs (n - buf.length) with ⟨p, s⟩
      have hb : ∃ k, n - buf.length = bytes_len (bufs.take k) := by
        cases k with
        | zero =>
          refine ⟨0, ?_⟩
          simp only [List.take_zero, bytes_len, List.foldl_nil] at hk ⊢
          omega
        | succ k =>
          refine ⟨k, ?_⟩
          rw [List.take_succ_cons, bytes_len_cons] at hk
          omega
      have := ih (n - buf.length) hb
      rw [hps] at this
      simp only [split_at_byte_offset, if_pos hle, hps]
      exact this
    · have h0 : n = 0 := by
        cases k with
        | zero => simpa [bytes_len] using hk
        | succ k =>
          rw [List.take_succ_cons, bytes_len_cons] at hk
          omega
      subst h0
      simp only [split_at_byte_offset, if_neg hle, reduceIte]
      exact ⟨trivial, trivial⟩

/-- C9: splitting a slice list at a byte offset is correct: the package
of prefix buffers followed by suffix buffers carries exactly the
original byte stream, `take_prefix` (modelled as `take_front`) is the
prefix half alone, and when the offset falls exactly on a slice
boundary both remainders are empty. -/
theorem split_at_byte_offset_correct (bufs : List (List UInt8)) (n : Nat) :
    ((split_at_byte_offset bufs n).1.iter_buffers).flatten ++
        ((split_at_byte_offset bufs n).2.iter_buffers).flatten = bufs.flatten ∧
      take_front bufs n = (split_at_byte_offset bufs n).1 ∧
      ((∃ k, n = bytes_len (bufs.take k)) →
        (split_at_byte_offset bufs n).1.remainder = [] ∧
          (split_at_byte_offset bufs n).2.remainder = []) := by
  refine ⟨?_, rfl, split_at_byte_offset_boundary bufs n⟩
  have h1 := flatten_take_front bufs n
  rw [take_front] at h1
  rw [h1, flatten_split_suf, List.take_append_drop]

/-- Witness for C9's boundary clause at a concrete input. -/
theorem split_at_byte_offset_correct_witness :
    (∃ k, 2 = bytes_len (([[1, 2], [3]] : List (List UInt8)).take k)) ∧
      ((split_at_byte_offset ([[1, 2], [3]] : List (List UInt8)) 2).1.remainder = [] ∧
        (split_at_byte_offset ([[1, 2], [3]] : List (List UInt8)) 2).2.remainder = []) :=
  ⟨⟨1, by decide⟩,
    (split_at_byte_offset_correct ([[1, 2], [3]] : List (List UInt8)) 2).2.2 ⟨1, by decide⟩⟩

/-! ## The byte buffer (`shared/buffer.rs`)

`Buf` owns a fixed-length byte array (`data`; its length is the
capacity) with a write cursor `cap` and a read cursor `pos`.  The
buffered region is `data[pos..cap]`, the available region is
`data[cap..]`. -/

structure Buf where
  data : List UInt8
  cap : Nat
  pos : Nat
  deriving DecidableEq, Repr

/-- `Buf::new`: a zeroed buffer of the given capacity. -/
def Buf.new (capacity : Nat) : Buf :=
  ⟨List.replicate capacity 0, 0, 0⟩

/-- `Buf::capacity`. -/
def Buf.capacity (b : Buf) : Nat :=
  b.data.length

/-- `Buf::clear`: reset both cursors, leaving the bytes in place. -/
def Buf.clear (b : Buf) : Buf :=
  { b with cap := 0, pos := 0 }

/-- `Buf::buffered_bytes`: the filled, not yet consumed region
`data[pos..cap]`. -/
def Buf.buffered_bytes (b : Buf) : List UInt8 :=
  (b.data.take b.cap).drop b.pos

/-- `buffered().commit(amt)`: advance the read cursor. -/
def Buf.commitRead (b : Buf) (amt : Nat) : Buf :=
  { b with pos := b.pos + amt }

/-- `available().commit(amt)`: advance the write cursor. -/
def Buf.commitWrite (b : Buf) (amt : Nat) : Buf :=
  { b with cap := b.cap + amt }

/-- `WritableRegion::fill` on the available region: copy
`min (slice.length, remaining)` bytes at the write cursor and commit
them; return the number of bytes copied. -/
def Buf.fill (b : Buf) (slice : List UInt8) : Nat × Buf :=
  let len := min slice.length (b.data.length - b.cap)
  (len,
   { b with
      data := b.data.take b.cap ++ slice.take len ++ b.data.drop (b.cap + len),
      cap := b.cap + len })

/-- `WritableRegion::fill_from_slices`: fold `fill` over the slices,
accumulating the number of bytes copied. -/
def Buf.fill_from_slices (b : Buf) (slices : List (List UInt8)) : Nat × Buf :=
  slices.foldl (fun acc s => let r := acc.2.fill s; (acc.1 + r.1, r.2)) (0, b)

/-- The buffer invariant of the spec: `0 ≤ pos ≤ cap ≤ capacity`, and
whenever `pos = cap` both cursors are 0 (the buffer is collapsed so the
available region is maximal). -/
def Buf.Wf (b : Buf) : Prop :=
  b.pos ≤ b.cap ∧ b.cap ≤ b.data.length ∧ (b.pos = b.cap → b.pos = 0 ∧ b.cap = 0)

instance (b : Buf) : Decidable b.Wf := by
  unfold Buf.Wf
  infer_instance

/-! ## The read driver (`read/mod.rs`), synchronous specialization

The asynchronous source is specialized to a deterministic synchronous
one: the remaining source bytes are carried in the driver state
(`src`), and every `poll_read` copies as many of them as fit in the
available region.  `Poll::Pending` never occurs; fuelled loops return
`none` when the iteration budget is exhausted. -/

structure RArchive where
  buf : Buf
  state : State
  src : List UInt8
  deriving DecidableEq, Repr

/-- `poll_fill_buf`: if the buffered region is empty, read from the
source into the available region; a 0-byte read is expected EOF in a
terminal state and `UnexpectedEof` otherwise. -/
def fillBuf (a : RArchive) : Except Err RArchive :=
  if a.buf.buffered_bytes = [] then
    let chunk := a.src.take (a.buf.capacity - a.buf.cap)
    let bytes_read := chunk.length
    if bytes_read = 0 then
      if a.buf.capacity - a.buf.cap = 0 then
        .error .panicked -- assert!(!available_bytes_mut().is_empty())
      else if !a.state.is_terminal then
        .error .unexpectedEofR
      else
        .ok { a with buf := a.buf.commitWrite 0 }
    else
      .ok { a with buf := (a.buf.fill chunk).2, src := a.src.drop bytes_read }
  else
    .ok a

/-- `Archive::consume` (read side): validate the first `amt` buffered
bytes through `take_slices`, chain one `next` across the marker/
zero-counter states listed in the source, assert exactly `amt` bytes
were accepted, advance the read cursor and collapse the buffer when
drained.  `none` models a panic of one of the asserts/expects. -/
def consume (a : RArchive) (amt : Nat) (header : Option Header) : Option RArchive :=
  let buffered := a.buf.buffered_bytes
  if amt ≤ buffered.length then
    match a.state.take_slices [buffered.take amt] header with
    | .error _ => none -- .expect("this slice should have already been checked")
    | .ok (s1, pos) =>
      let chained : Option State :=
        match s1 with
        | .receivingHeader 0 false | .receivedHeader | .receivingData 0
        | .receivedData | .aligningData 0 | .alignedData | .receivingEof 0 =>
          match s1.next [] header with
          | .error _ => none -- .unwrap()
          | .ok (s2, _) => some s2
        | _ => some s1
      match chained with
      | none => none
      | some s2 =>
        if pos = amt then
          let b := a.buf.commitRead amt
          some { a with buf := if b.buffered_bytes = [] then b.clear else b, state := s2 }
        else
          none -- assert_eq!(pos, amt)
  else
    none -- assert!(available >= amt)

/-- `poll_next_state`: fill the buffer, then run one `next` over the
buffered bytes. -/
def poll_next_state (a : RArchive) (header : Option Header) :
    Except Err (RArchive × State × Nat) :=
  match fillBuf a with
  | .error e => .error e
  | .ok a1 =>
    match a1.state.next a1.buf.buffered_bytes header with
    | .error e => .error e
    | .ok (s, amt) => .ok (a1, s, amt)

/-- The dispatch loop of `poll_next_entry` (after its terminal check). -/
def pollNextEntryLoop : Nat → RArchive → Option (Except Err (RArchive × Option Header))
  | 0, _ => none
  | fuel + 1, a =>
    match poll_next_state a none with
    | .error e => some (.error e)
    | .ok (a1, s, amt) =>
      match s with
      | .receivedHeader =>
        match as_header (a1.buf.buffered_bytes.take BLOCK_SIZE) with
        | .error e => some (.error e)
        | .ok header =>
          match consume a1 amt (some header) with
          | none => some (.error .panicked)
          | some a2 =>
            -- Entry::new: checksum must parse and be positive, size must parse.
            match header.cksum with
            | .error e => some (.error e)
            | .ok c =>
              if c = 0 then some (.error .panicked) -- assert!(cksum > 0)
              else
                match header.size? with
                | .error e => some (.error e)
                | .ok _ => some (.ok (a2, some header))
      | .receivedEof =>
        match consume a1 amt none with
        | none => some (.error .panicked)
        | some a2 => some (.ok (a2, none))
      | .receivingHeader _ _ | .receivingEof _ =>
        match consume a1 amt none with
        | none => some (.error .panicked)
        | some a2 => pollNextEntryLoop fuel a2
      | .aligningData _ | .alignedData =>
        -- Finishing off a previous entry.
        match consume a1 amt none with
        | none => some (.error .panicked)
        | some a2 => pollNextEntryLoop fuel a2
      | _ => some (.error .panicked) -- panic!("cannot read next entry ...")

/-- `poll_next_entry`: absence in a terminal state, otherwise the
dispatch loop. -/
def poll_next_entry (fuel : Nat) (a : RArchive) :
    Option (Except Err (RArchive × Option Header)) :=
  if a.state.is_terminal then some (.ok (a, none))
  else pollNextEntryLoop fuel a

/-- `poll_read_entry`: loop until entry bytes (or entry EOF) can be
handed to the caller. -/
def poll_read_entry : Nat → RArchive → Header → Option (Except Err (RArchive × List UInt8))
  | 0, _, _ => none
  | fuel + 1, a, header =>
    match poll_next_state a (some header) with
    | .error e => some (.error e)
    | .ok (a1, s, amt) =>
      match s with
      | .receivingData _ | .receivedData =>
        -- Our caller will consume as much as they need.
        some (.ok (a1, a1.buf.buffered_bytes.take amt))
      | .aligningData _ =>
        match consume a1 amt none with
        | none => some (.error .panicked)
        | some a2 => poll_read_entry fuel a2 header
      | .alignedData =>
        match consume a1 amt (some header) with
        | none => some (.error .panicked)
        | some a2 => some (.ok (a2, []))
      | _ => some (.error .panicked) -- unreachable!("cannot read entry")

/-- The caller's read loop over one entry (`Entry` as `AsyncRead`, read
with a large caller buffer until a 0-byte read): accumulate the handed
bytes, consuming each batch, until an empty batch signals entry EOF. -/
def read_entry_data : Nat → RArchive → Header → List UInt8 →
    Option (Except Err (RArchive × List UInt8))
  | 0, _, _, _ => none
  | fuel + 1, a, header, acc =>
    match poll_read_entry 8 a header with
    | none => none
    | some (.error e) => some (.error e)
    | some (.ok (a1, bytes)) =>
      match consume a1 bytes.length (some header) with
      | none => some (.error .panicked)
      | some a2 =>
        if bytes = [] then some (.ok (a2, acc))
        else read_entry_data fuel a2 header (acc ++ bytes)

/-- The caller's archive-reading loop: `next_entry` until absence,
reading every entry's bytes in full. -/
def read_archive : Nat → RArchive → List (Header × List UInt8) →
    Option (Except Err (List (Header × List UInt8)))
  | 0, _, _ => none
  | fuel + 1, a, acc =>
    match poll_next_entry 8 a with
    | none => none
    | some (.error e) => some (.error e)
    | some (.ok (_, none)) => some (.ok acc)
    | some (.ok (a1, some header)) =>
      match read_entry_data 8 a1 header [] with
      | none => none
      | some (.error e) => some (.error e)
      | some (.ok (a2, bytes)) => read_archive fuel a2 (acc ++ [(header, bytes)])

/-- Read a whole archive from a byte stream through a fresh driver. -/
def readArchive (fuel : Nat) (capacity : Nat) (stream : List UInt8) :
    Option (Except Err (List (Header × List UInt8))) :=
  read_archive fuel ⟨Buf.new capacity, .expectingHeader, stream⟩ []

/-! ## The write driver (`write/mod.rs`), synchronous specialization

The asynchronous sink is specialized to a deterministic synchronous one
that accepts every write in full (`out` accumulates the bytes it has
accepted) and does not advertise vectored writes.  Errors carry the
driver state at the point of failure, mirroring `&mut self`. -/

structure WArchive where
  buf : Buf
  state : State
  out : List UInt8
  deriving DecidableEq, Repr

/-- `is_write_vectored` of the modelled sink. -/
def ioIsWriteVectored : Bool := false

/-- `poll_flush_buffered` against the always-accepting sink: the whole
buffered region is written out in one iteration and the buffer is
cleared.  (The `WriteZero` branch cannot trigger: the sink never
accepts 0 bytes of a non-empty write.) -/
def poll_flush_buffered (w : WArchive) : WArchive :=
  { w with out := w.out ++ w.buf.buffered_bytes, buf := w.buf.clear }

/-- `poll_write_vectored`, the write datapath: take the `max`-byte
prefix, pre-validate it against the state machine, flush if passing
through or short of space, then pass through (against the sync sink:
everything is accepted) or copy into the buffer, and finally adopt the
pre-validated state (full write) or replay the written prefix (short
write). -/
def poll_write_vectored (w : WArchive) (bufs : List (List UInt8)) (max : Nat)
    (header : Option Header) : Except (Err × WArchive) (Nat × WArchive) :=
  let pre := take_front bufs max
  let prefix_len := bytes_len pre.iter_buffers
  -- Check that bufs contain valid data before we go ahead and write them.
  match w.state.take_slices pre.iter_buffers header with
  | .error e => .error (e, w)
  | .ok (ns, n) =>
    if n = prefix_len then
      let can_pass_through := decide (w.buf.capacity ≤ prefix_len) && ioIsWriteVectored
      let w1 :=
        if can_pass_through || w.buf.capacity - w.buf.cap < prefix_len then
          poll_flush_buffered w
        else w
      if can_pass_through then
        -- The sync sink accepts the whole slice array, then the remainder.
        .ok (prefix_len, { w1 with out := w1.out ++ pre.iter_buffers.flatten, state := ns })
      else
        let r := w1.buf.fill_from_slices pre.iter_buffers
        if r.1 = prefix_len then
          .ok (r.1, { w1 with buf := r.2, state := ns })
        else
          -- Short write: replay the written prefix.
          let pre2 := take_front pre.iter_buffers r.1
          match w.state.take_slices pre2.iter_buffers header with
          | .error _ => .error (.panicked, { w1 with buf := r.2 })
          | .ok (ns2, n2) =>
            if n2 = r.1 then
              .ok (r.1, { w1 with buf := r.2, state := ns2 })
            else
              .error (.panicked, { w1 with buf := r.2 }) -- assert_eq!(next.1, bytes_written)
    else
      .error (.panicked, w) -- assert_eq!(next.1, prefix_len)

/-- `poll_write_data`: the single-slice entry point to the datapath. -/
def poll_write_data (w : WArchive) (buf : List UInt8) (header : Option Header) :
    Except (Err × WArchive) (Nat × WArchive) :=
  poll_write_vectored w [buf] buf.length header

/-- `poll_write_header`: drive the state machine through the 512 header
bytes; rejects overlapping entries, retries short writes from
`ReceivingHeader(rem, false)`. -/
def poll_write_header : Nat → WArchive → Header → Option (Except (Err × WArchive) WArchive)
  | 0, _, _ => none
  | fuel + 1, w, header =>
    match w.state with
    | .expectingHeader =>
      match poll_write_data w header.as_bytes (some header) with
      | .error ew => some (.error ew)
      | .ok (n, w') =>
        if n = 0 then some (.error (.writeZero, w'))
        else poll_write_header fuel w' header
    | .receivingHeader rem false =>
      match poll_write_data w (header.as_bytes.drop (BLOCK_SIZE - rem)) (some header) with
      | .error ew => some (.error ew)
      | .ok (n, w') =>
        if n = 0 ∧ 0 < rem then some (.error (.writeZero, w'))
        else poll_write_header fuel w' header
    | .receivedHeader =>
      match w.state.take_marker (some header) with
      | .error e => some (.error (e, w))
      | .ok s' => some (.ok { w with state := s' })
    | .receivingData _ | .receivedData | .aligningData _ | .alignedData =>
      some (.error (.overlappingEntry, w))
    | .receivingHeader _ true | .receivingEof _ | .receivedEof =>
      some (.error (.panicked, w)) -- panic!("cannot write header; invalid state")

/-- `poll_finish_entry`: step the post-payload markers and write the
alignment padding from the canonical empty block. -/
def poll_finish_entry : Nat → WArchive → Header → Option (Except (Err × WArchive) WArchive)
  | 0, _, _ => none
  | fuel + 1, w, header =>
    match w.state with
    | .receivedData =>
      match w.state.take_marker (some header) with
      | .error e => some (.error (e, w))
      | .ok s' => poll_finish_entry fuel { w with state := s' } header
    | .aligningData rem =>
      match poll_write_data w ((List.replicate BLOCK_SIZE (0 : UInt8)).take rem)
          (some header) with
      | .error ew => some (.error ew)
      | .ok (_, w') => poll_finish_entry fuel w' header
    | .alignedData =>
      match w.state.take_marker none with
      | .error e => some (.error (e, w))
      | .ok s' => some (.ok { w with state := s' })
    | .expectingHeader => some (.ok w)
    | _ => some (.error (.panicked, w)) -- panic!("cannot finish entry ...")

/-- `poll_write_entry`: only valid mid-payload; when the reported count
completes the payload, chain `poll_finish_entry`. -/
def poll_write_entry (fuel : Nat) (w : WArchive) (bufs : List (List UInt8))
    (header : Header) : Option (Except (Err × WArchive) (Nat × WArchive)) :=
  match w.state with
  | .receivingData rem =>
    match poll_write_vectored w bufs rem (some header) with
    | .error ew => some (.error ew)
    | .ok (n, w1) =>
      if n = rem then
        match poll_finish_entry fuel w1 header with
        | none => none
        | some (.error ew) => some (.error ew)
        | some (.ok w2) => some (.ok (n, w2))
      else
        some (.ok (n, w1))
  | _ => some (.error (.panicked, w)) -- panic!("cannot write entry ...")

/-- `Entry::poll_shutdown` (write side): finish the entry, then flush. -/
def entry_poll_shutdown (fuel : Nat) (w : WArchive) (header : Header) :
    Option (Except (Err × WArchive) WArchive) :=
  match poll_finish_entry fuel w header with
  | none => none
  | some (.error ew) => some (.error ew)
  | some (.ok w1) => some (.ok (poll_flush_buffered w1))

/-- `poll_finish`: write the two trailing empty blocks, then flush the
buffer and shut the sink down. -/
def poll_finish : Nat → WArchive → Option (Except (Err × WArchive) WArchive)
  | 0, _ => none
  | fuel + 1, w =>
    match w.state with
    | .expectingHeader =>
      match poll_write_data w (List.replicate BLOCK_SIZE (0 : UInt8)) none with
      | .error ew => some (.error ew)
      | .ok (_, w') => poll_finish fuel w'
    | .receivingHeader rem true | .receivingEof rem =>
      match poll_write_data w ((List.replicate BLOCK_SIZE (0 : UInt8)).take rem) none with
      | .error ew => some (.error ew)
      | .ok (_, w') => poll_finish fuel w'
    | .receivedEof =>
      some (.ok (poll_flush_buffered w)) -- then io.poll_shutdown, accepted
    | _ => some (.error (.panicked, w)) -- panic!("cannot finish archive ...")

/-- `Archive::add_entry`: write the header, then run `Entry::new`'s
checks (checksum parses and is positive, size parses). -/
def add_entry (fuel : Nat) (w : WArchive) (header : Header) :
    Option (Except (Err × WArchive) WArchive) :=
  match poll_write_header fuel w header with
  | none => none
  | some (.error ew) => some (.error ew)
  | some (.ok w1) =>
    match header.cksum with
    | .error e => some (.error (e, w1))
    | .ok c =>
      if c = 0 then some (.error (.panicked, w1)) -- assert!(cksum > 0)
      else
        match header.size? with
        | .error e => some (.error (e, w1))
        | .ok _ => some (.ok w1)

/-- The caller's per-entry write sequence: `add_entry`, one write of the
whole payload, `Entry::finish`. -/
def writeEntryFull (w : WArchive) (e : Header × List UInt8) :
    Option (Except (Err × WArchive) WArchive) :=
  match add_entry 8 w e.1 with
  | none => none
  | some (.error ew) => some (.error ew)
  | some (.ok w1) =>
    match poll_write_entry 8 w1 [e.2] e.1 with
    | none => none
    | some (.error ew) => some (.error ew)
    | some (.ok (_, w2)) => entry_poll_shutdown 8 w2 e.1

/-- The caller's archive-writing loop. -/
def writeEntries : List (Header × List UInt8) → WArchive →
    Option (Except (Err × WArchive) WArchive)
  | [], w => some (.ok w)
  | e :: es, w =>
    match writeEntryFull w e with
    | none => none
    | some (.error ew) => some (.error ew)
    | some (.ok w1) => writeEntries es w1

/-- Write a whole archive through a fresh driver and return the bytes
delivered to the sink. -/
def writeArchive (capacity : Nat) (entries : List (Header × List UInt8)) :
    Option (Except (Err × WArchive) (List UInt8)) :=
  match writeEntries entries ⟨Buf.new capacity, .expectingHeader, []⟩ with
  | none => none
  | some (.error ew) => some (.error ew)
  | some (.ok w) =>
    match poll_finish 8 w with
    | none => none
    | some (.error ew) => some (.error ew)
    | some (.ok w') => some (.ok w'.out)

/-! ## Claims about the drivers -/

/-- C7: when the underlying source read returns 0 bytes into a non-full
available region while the buffered region is empty, the read driver
reports EOF to the caller normally if the state machine is terminal
(`poll_fill_buf` succeeds committing 0 bytes, and `poll_next_entry`
returns absence), and otherwise fails with an `UnexpectedEof` error. -/
theorem fill_buf_source_eof (a : RArchive) (fuel : Nat)
    (hbuf : a.buf.buffered_bytes = []) (hsrc : a.src = [])
    (havail : a.buf.cap < a.buf.capacity) :
    (a.state.is_terminal = true →
      fillBuf a = .ok { a with buf := a.buf.commitWrite 0 } ∧
        poll_next_entry fuel a = some (.ok (a, none))) ∧
    (a.state.is_terminal = false →
      fillBuf a = .error .unexpectedEofR ∧
        Err.kind .unexpectedEofR = .unexpectedEof) := by
  have hchunk : a.src.take (a.buf.capacity - a.buf.cap) = [] := by
    rw [hsrc, List.take_nil]
  have hav : ¬(a.buf.capacity - a.buf.cap = 0) := by omega
  constructor
  · intro hterm
    constructor
    · rw [fillBuf, if_pos hbuf]
      simp only [hchunk, List.length_nil, if_pos rfl, if_neg hav, hterm,
        Bool.not_true, Bool.false_eq_true, if_false, if_true]
    · rw [poll_next_entry, if_pos hterm]
  · intro hterm
    refine ⟨?_, rfl⟩
    rw [fillBuf, if_pos hbuf]
    simp only [hchunk, List.length_nil, if_pos rfl, if_neg hav, hterm,
      Bool.not_false, if_pos rfl, if_true]

/-- Witness for C7 at concrete inputs: a drained source under a terminal
state (`ReceivedEof`) and under a non-terminal one (`ExpectingHeader`). -/
theorem fill_buf_source_eof_witness :
    (fillBuf ⟨Buf.new 512, .receivedEof, []⟩ =
        .ok ⟨(Buf.new 512).commitWrite 0, .receivedEof, []⟩ ∧
      poll_next_entry 1 ⟨Buf.new 512, .receivedEof, []⟩ =
        some (.ok (⟨Buf.new 512, .receivedEof, []⟩, none))) ∧
    fillBuf ⟨Buf.new 512, .expectingHeader, []⟩ = .error .unexpectedEofR :=
  ⟨(fill_buf_source_eof ⟨Buf.new 512, .receivedEof, []⟩ 1 (by decide) rfl
      (by decide)).1 rfl,
   ((fill_buf_source_eof ⟨Buf.new 512, .expectingHeader, []⟩ 1 (by decide) rfl
      (by decide)).2 rfl).1⟩

/-- C8: calling `add_entry` (which drives `poll_write_header`) while
the state machine is in any payload or alignment state returns the
overlapping-entry error, whose I/O error kind is `Unsupported`, and the
driver state carried out of the failed call is exactly the state it was
called with. -/
theorem add_entry_overlapping (w : WArchive) (header : Header) (fuel : Nat)
    (h : (∃ r, w.state = .receivingData r) ∨ w.state = .receivedData ∨
      (∃ r, w.state = .aligningData r) ∨ w.state = .alignedData) :
    poll_write_header (fuel + 1) w header = some (.error (.overlappingEntry, w)) ∧
      add_entry (fuel + 1) w header = some (.error (.overlappingEntry, w)) ∧
      Err.kind .overlappingEntry = .unsupported := by
  have hd : poll_write_header (fuel + 1) w header =
      some (.error (.overlappingEntry, w)) := by
    rcases h with ⟨r, hs⟩ | hs | ⟨r, hs⟩ | hs <;>
      (rw [poll_write_header, hs])
  refine ⟨hd, ?_, rfl⟩
  rw [add_entry, hd]

/-- Witness for C8: a partially written 512-byte payload
(`ReceivingData(412)`, as after accepting 100 of 512 payload bytes). -/
theorem add_entry_overlapping_witness :
    poll_write_header 8 ⟨Buf.new 512, .receivingData 412, []⟩ ⟨[]⟩ =
        some (.error (.overlappingEntry, ⟨Buf.new 512, .receivingData 412, []⟩)) ∧
      add_entry 8 ⟨Buf.new 512, .receivingData 412, []⟩ ⟨[]⟩ =
        some (.error (.overlappingEntry, ⟨Buf.new 512, .receivingData 412, []⟩)) ∧
      Err.kind .overlappingEntry = .unsupported :=
  add_entry_overlapping ⟨Buf.new 512, .receivingData 412, []⟩ ⟨[]⟩ 7
    (Or.inl ⟨412, rfl⟩)

/-- C5 counterexample: `consume` does *not* chain a `state.next` across
every marker state.  From `ReceivingEof(512)` with a buffered zero
block, `consume(512, None)` ends in `ReceivedEof` — a marker state —
and leaves it unchained (a chained `next(&[], hdr)` would fail with the
after-EOF error, as the last conjunct shows). -/
theorem consume_no_chain_at_receivedEof :
    consume ⟨⟨List.replicate 512 0, 512, 0⟩, .receivingEof 512, []⟩ 512 none =
        some ⟨⟨List.replicate 512 0, 0, 0⟩, .receivedEof, []⟩ ∧
      State.is_marker .receivedEof = true ∧
      State.next .receivedEof [] none = .error .eofData := by
  refine ⟨by decide, rfl, rfl⟩

/-! ### Buffer well-formedness -/

theorem Buf.new_wf (n : Nat) : (Buf.new n).Wf := by
  refine ⟨Nat.le_refl 0, ?_, fun _ => ⟨rfl, rfl⟩⟩
  simp [Buf.new]

theorem Buf.clear_wf (b : Buf) : b.clear.Wf :=
  ⟨Nat.le_refl 0, Nat.zero_le _, fun _ => ⟨rfl, rfl⟩⟩

theorem Buf.buffered_bytes_length {b : Buf} (hwf : b.Wf) :
    b.buffered_bytes.length = b.cap - b.pos := by
  obtain ⟨-, h2, -⟩ := hwf
  simp [Buf.buffered_bytes, Nat.min_eq_left h2]

theorem Buf.fill_wf {b : Buf} (hwf : b.Wf) (s : List UInt8) :
    (b.fill s).2.Wf ∧ (b.fill s).2.data.length = b.data.length ∧
      (b.fill s).2.pos = b.pos ∧ (b.fill s).2.cap = b.cap + (b.fill s).1 ∧
      (b.fill s).1 = min s.length (b.data.length - b.cap) := by
  obtain ⟨h1, h2, h3⟩ := hwf
  have hlen : (b.data.take b.cap ++ s.take (min s.length (b.data.length - b.cap)) ++
      b.data.drop (b.cap + min s.length (b.data.length - b.cap))).length =
      b.data.length := by
    simp only [List.length_append, List.length_take, List.length_drop]
    omega
  refine ⟨⟨?_, ?_, ?_⟩, hlen, rfl, rfl, rfl⟩
  · simp only [Buf.fill]
    omega
  · simp only [Buf.fill, hlen]
    omega
  · simp only [Buf.fill]
    intro hpc
    have hmin : min s.length (b.data.length - b.cap) = 0 := by omega
    have hpc' : b.pos = b.cap := by omega
    obtain ⟨hp0, hc0⟩ := h3 hpc'
    omega

theorem Buf.fill_from_slices_wf {b : Buf} (hwf : b.Wf) (slices : List (List UInt8)) :
    (b.fill_from_slices slices).2.Wf ∧
      (b.fill_from_slices slices).2.data.length = b.data.length ∧
      (b.fill_from_slices slices).2.pos = b.pos := by
  suffices hgen : ∀ (acc : Nat) (b : Buf), b.Wf →
      ((slices.foldl (fun acc s => let r := acc.2.fill s; (acc.1 + r.1, r.2)) (acc, b)).2.Wf ∧
        (slices.foldl (fun acc s => let r := acc.2.fill s; (acc.1 + r.1, r.2)) (acc, b)).2.data.length = b.data.length ∧
        (slices.foldl (fun acc s => let r := acc.2.fill s; (acc.1 + r.1, r.2)) (acc, b)).2.pos = b.pos) by
    exact hgen 0 b hwf
  clear hwf b
  induction slices with
  | nil => intro acc b hwf; exact ⟨hwf, rfl, rfl⟩
  | cons s rest ih =>
    intro acc b hwf
    simp only [List.foldl_cons]
    obtain ⟨hwf', hdl, hpos, -, -⟩ := Buf.fill_wf hwf s
    obtain ⟨ha, hb, hc⟩ := ih (acc + (b.fill s).1) (b.fill s).2 hwf'
    exact ⟨ha, by rw [hb, hdl], by rw [hc, hpos]⟩

/-- The shape of the buffer produced by a successful `consume`. -/
theorem consume_buf_shape {a : RArchive} {amt : Nat} {hdr : Option Header}
    {a' : RArchive} (h : consume a amt hdr = some a') :
    amt ≤ a.buf.buffered_bytes.length ∧
      a'.buf = (if (a.buf.commitRead amt).buffered_bytes = [] then
        (a.buf.commitRead amt).clear else a.buf.commitRead amt) ∧
      a'.src = a.src := by
  rw [consume] at h
  split at h
  · rename_i hle
    split at h
    · exact absurd h (by simp)
    · rename_i s1 pos heq
      dsimp only at h
      split at h
      · exact absurd h (by simp)
      · rename_i s2 hch
        split at h
        · rename_i hpa
          refine ⟨hle, ?_, ?_⟩
          · injection h with h
            rw [← h]
          · injection h with h
            rw [← h]
        · exact absurd h (by simp)
  · exact absurd h (by simp)

theorem consume_wf {a : RArchive} {amt : Nat} {hdr : Option Header}
    {a' : RArchive} (hwf : a.buf.Wf) (h : consume a amt hdr = some a') :
    a'.buf.Wf := by
  obtain ⟨hle, hshape, -⟩ := consume_buf_shape h
  rw [hshape]
  rw [Buf.buffered_bytes_length hwf] at hle
  split
  · exact Buf.clear_wf _
  · rename_i hne
    obtain ⟨h1, h2, h3⟩ := hwf
    refine ⟨?_, h2, ?_⟩
    · simp only [Buf.commitRead]
      omega
    · intro hpc
      exfalso
      apply hne
      simp only [Buf.commitRead] at hpc ⊢
      simp only [Buf.buffered_bytes, List.drop_eq_nil_iff, List.length_take]
      omega

theorem fillBuf_wf {a a' : RArchive} (hwf : a.buf.Wf) (h : fillBuf a = .ok a') :
    a'.buf.Wf := by
  rw [fillBuf] at h
  dsimp only at h
  split at h
  · split at h
    · split at h
      · exact absurd h (by simp)
      · split at h
        · exact absurd h (by simp)
        · injection h with h
          rw [← h]
          obtain ⟨h1, h2, h3⟩ := hwf
          refine ⟨?_, ?_, ?_⟩ <;> simp only [Buf.commitWrite, Nat.add_zero]
          · exact h1
          · exact h2
          · exact h3
    · injection h with h
      rw [← h]
      exact (Buf.fill_wf hwf _).1
  · injection h with h
    rw [← h]
    exact hwf

theorem poll_flush_buffered_wf (w : WArchive) : (poll_flush_buffered w).buf.Wf :=
  Buf.clear_wf _

theorem poll_write_vectored_wf {w : WArchive} {bufs : List (List UInt8)}
    {max : Nat} {hdr : Option Header} {n : Nat} {w' : WArchive}
    (hwf : w.buf.Wf) (h : poll_write_vectored w bufs max hdr = .ok (n, w')) :
    w'.buf.Wf := by
  have hflush : ∀ v : WArchive, (poll_flush_buffered v).buf.Wf := fun _ => Buf.clear_wf _
  rw [poll_write_vectored] at h
  dsimp only at h
  repeat' split at h
  all_goals
    first
      | (obtain ⟨-, hk⟩ := ok_pair_inj h
         rw [← hk]
         first
           | exact (Buf.fill_from_slices_wf (hflush w) _).1
           | exact (Buf.fill_from_slices_wf hwf _).1
           | exact hflush w
           | exact hwf)
      | exact absurd h (by simp)

/-- C6: the buffer cursor invariant `0 ≤ pos ≤ cap ≤ capacity`, with the
collapse property (`pos = cap` forces both cursors to 0 so the
available region is maximal), holds of a fresh buffer, characterizes
the buffered region as `data[pos..cap]` and the available region as
`data[cap..capacity]`, and is preserved by every driver operation:
read-side `consume` and `poll_fill_buf`, and write-side
`poll_flush_buffered` and `poll_write_vectored`. -/
theorem buffer_invariant :
    (∀ n, (Buf.new n).Wf) ∧
    (∀ b : Buf, b.buffered_bytes = (b.data.take b.cap).drop b.pos) ∧
    (∀ b : Buf, b.Wf →
      b.buffered_bytes.length = b.cap - b.pos ∧
        (b.data.drop b.cap).length = b.capacity - b.cap) ∧
    (∀ (a : RArchive) (amt : Nat) (hdr : Option Header) (a' : RArchive),
      a.buf.Wf → consume a amt hdr = some a' → a'.buf.Wf) ∧
    (∀ a a' : RArchive, a.buf.Wf → fillBuf a = .ok a' → a'.buf.Wf) ∧
    (∀ w : WArchive, (poll_flush_buffered w).buf.Wf) ∧
    (∀ (w : WArchive) (bufs : List (List UInt8)) (max : Nat)
        (hdr : Option Header) (n : Nat) (w' : WArchive),
      w.buf.Wf → poll_write_vectored w bufs max hdr = .ok (n, w') → w'.buf.Wf) := by
  refine ⟨Buf.new_wf, fun _ => rfl, ?_, ?_, ?_, poll_flush_buffered_wf, ?_⟩
  · intro b hwf
    exact ⟨Buf.buffered_bytes_length hwf, by simp [Buf.capacity]⟩
  · intro a amt hdr a' hwf h
    exact consume_wf hwf h
  · intro a a' hwf h
    exact fillBuf_wf hwf h
  · intro w bufs max hdr n w' hwf h
    exact poll_write_vectored_wf hwf h

/-- Witness for C6's conditional clauses at a concrete driver
operation. -/
theorem buffer_invariant_witness :
    (⟨⟨[1, 2, 3, 4], 4, 0⟩, State.receivingData 4, []⟩ : RArchive).buf.Wf ∧
      consume ⟨⟨[1, 2, 3, 4], 4, 0⟩, .receivingData 4, []⟩ 4 (some ⟨[]⟩) =
        some ⟨⟨[1, 2, 3, 4], 0, 0⟩, .aligningData 0, []⟩ ∧
      (⟨⟨[1, 2, 3, 4], 0, 0⟩, State.aligningData 0, []⟩ : RArchive).buf.Wf :=
  ⟨by decide, by decide,
    buffer_invariant.2.2.2.1 ⟨⟨[1, 2, 3, 4], 4, 0⟩, .receivingData 4, []⟩ 4
      (some ⟨[]⟩) ⟨⟨[1, 2, 3, 4], 0, 0⟩, .aligningData 0, []⟩ (by decide) (by decide)⟩

/-- The states across which `consume` chains a final `state.next` — the
match list in `read/mod.rs`: the marker and zero-counter variants other
than `ExpectingHeader`, `ReceivedEof` and `ReceivingHeader(0, true)`. -/
def isChained : State → Bool
  | .receivingHeader 0 false => true
  | .receivedHeader => true
  | .receivingData 0 => true
  | .receivedData => true
  | .aligningData 0 => true
  | .alignedData => true
  | .receivingEof 0 => true
  | _ => false

/-- C5 (as amended): a successful `consume(amt, hdr)` applies
`take_slices` to exactly the first `amt` buffered bytes (hypothesis
`hts` is stated over those very bytes), requires the machine to accept
exactly `amt` of them, advances the buffer read cursor by `amt`
(collapsing the buffer when drained), and chains one additional
`state.next` with an empty buffer exactly across the states of
`isChained` — the marker/zero-counter variants other than
`ExpectingHeader`, `ReceivedEof` and `ReceivingHeader(0, true)`; the
chained step never fails provided a header with a parseable entry size
is supplied whenever the resulting state is `ReceivedHeader` or
`ReceivedData`. -/
theorem consume_characterization (a : RArchive) (amt : Nat) (hdr : Option Header)
    (s1 : State) (hle : amt ≤ a.buf.buffered_bytes.length)
    (hts : a.state.take_slices [a.buf.buffered_bytes.take amt] hdr = .ok (s1, amt))
    (hhdr : (s1 = .receivedHeader ∨ s1 = .receivedData) →
      ∃ h k, hdr = some h ∧ h.entry_size = .ok k) :
    ∃ a', consume a amt hdr = some a' ∧
      a'.src = a.src ∧
      a'.buf = (if (a.buf.commitRead amt).buffered_bytes = [] then
        (a.buf.commitRead amt).clear else a.buf.commitRead amt) ∧
      (isChained s1 = true →
        ∃ s2, s1.next [] hdr = .ok (s2, 0) ∧ a'.state = s2) ∧
      (isChained s1 = false → a'.state = s1) := by
  rw [consume]
  dsimp only
  rw [if_pos hle, hts]
  dsimp only
  cases s1 with
  | expectingHeader =>
    exact ⟨_, if_pos rfl, rfl, rfl, fun habs => absurd habs (by simp [isChained]),
      fun _ => rfl⟩
  | receivingHeader rem b =>
    rcases rem with - | rem <;> cases b
    · -- ReceivingHeader(0, false): chained to ReceivedHeader
      exact ⟨_, if_pos rfl, rfl, rfl, fun _ => ⟨.receivedHeader, rfl, rfl⟩,
        fun habs => absurd habs (by simp [isChained])⟩
    · -- ReceivingHeader(0, true): not chained
      exact ⟨_, if_pos rfl, rfl, rfl, fun habs => absurd habs (by simp [isChained]),
        fun _ => rfl⟩
    · exact ⟨_, if_pos rfl, rfl, rfl, fun habs => absurd habs (by simp [isChained]),
        fun _ => rfl⟩
    · exact ⟨_, if_pos rfl, rfl, rfl, fun habs => absurd habs (by simp [isChained]),
        fun _ => rfl⟩
  | receivedHeader =>
    obtain ⟨hh, k, heq, hes⟩ := hhdr (Or.inl rfl)
    subst heq
    have hnext : State.next .receivedHeader [] (some hh) = .ok (.receivingData k, 0) := by
      simp [State.next, hes]
    rw [hnext]
    exact ⟨_, if_pos rfl, rfl, rfl, fun _ => ⟨.receivingData k, rfl, rfl⟩,
      fun habs => absurd habs (by simp [isChained])⟩
  | receivingData rem =>
    rcases rem with - | rem
    · exact ⟨_, if_pos rfl, rfl, rfl, fun _ => ⟨.receivedData, rfl, rfl⟩,
        fun habs => absurd habs (by simp [isChained])⟩
    · exact ⟨_, if_pos rfl, rfl, rfl, fun habs => absurd habs (by simp [isChained]),
        fun _ => rfl⟩
  | receivedData =>
    obtain ⟨hh, k, heq, hes⟩ := hhdr (Or.inr rfl)
    subst heq
    have hnext : State.next .receivedData [] (some hh) =
        .ok (.aligningData (nextMultipleOf k BLOCK_SIZE - k), 0) := by
      simp [State.next, hes]
    rw [hnext]
    exact ⟨_, if_pos rfl, rfl, rfl,
      fun _ => ⟨.aligningData (nextMultipleOf k BLOCK_SIZE - k), rfl, rfl⟩,
      fun habs => absurd habs (by simp [isChained])⟩
  | aligningData rem =>
    rcases rem with - | rem
    · exact ⟨_, if_pos rfl, rfl, rfl, fun _ => ⟨.alignedData, rfl, rfl⟩,
        fun habs => absurd habs (by simp [isChained])⟩
    · exact ⟨_, if_pos rfl, rfl, rfl, fun habs => absurd habs (by simp [isChained]),
        fun _ => rfl⟩
  | alignedData =>
    exact ⟨_, if_pos rfl, rfl, rfl, fun _ => ⟨.expectingHeader, rfl, rfl⟩,
      fun habs => absurd habs (by simp [isChained])⟩
  | receivingEof rem =>
    rcases rem with - | rem
    · exact ⟨_, if_pos rfl, rfl, rfl, fun _ => ⟨.receivedEof, rfl, rfl⟩,
        fun habs => absurd habs (by simp [isChained])⟩
    · exact ⟨_, if_pos rfl, rfl, rfl, fun habs => absurd habs (by simp [isChained]),
        fun _ => rfl⟩
  | receivedEof =>
    exact ⟨_, if_pos rfl, rfl, rfl, fun habs => absurd habs (by simp [isChained]),
      fun _ => rfl⟩

/-- Witness for C5 (as amended) at a concrete input: consuming the last
4 payload bytes of an entry chains the `ReceivedData → AligningData`
step. -/
theorem consume_characterization_witness :
    ∃ a', consume ⟨⟨[1, 2, 3, 4], 4, 0⟩, .receivingData 4, []⟩ 4 (some ⟨[]⟩) = some a' ∧
      a'.src = [] ∧
      a'.buf = (if ((⟨[1, 2, 3, 4], 4, 0⟩ : Buf).commitRead 4).buffered_bytes = [] then
        ((⟨[1, 2, 3, 4], 4, 0⟩ : Buf).commitRead 4).clear
        else (⟨[1, 2, 3, 4], 4, 0⟩ : Buf).commitRead 4) ∧
      (isChained .receivedData = true →
        ∃ s2, State.next .receivedData [] (some ⟨[]⟩) = .ok (s2, 0) ∧ a'.state = s2) ∧
      (isChained .receivedData = false → a'.state = .receivedData) :=
  consume_characterization ⟨⟨[1, 2, 3, 4], 4, 0⟩, .receivingData 4, []⟩ 4
    (some ⟨[]⟩) .receivedData (by decide) (by decide)
    (fun _ => ⟨⟨[]⟩, 0, rfl, by decide⟩)

/-! ### Prefix behaviour of `next` (towards C4) -/

theorem next_rh_eq (rem : Nat) (ie : Bool) (buf : List UInt8) (hdr : Option Header) :
    State.next (.receivingHeader rem ie) buf hdr =
      .ok
        (if rem - min rem buf.length = 0 then
          if ie && ((buf.take (min rem buf.length)).all (· == 0)) then
            .receivingEof BLOCK_SIZE
          else .receivedHeader
        else
          .receivingHeader (rem - min rem buf.length)
            (ie && ((buf.take (min rem buf.length)).all (· == 0))),
        min rem buf.length) := by
  simp only [State.next]
  split
  · split <;> rfl
  · rfl

theorem next_rd_eq (rem : Nat) (buf : List UInt8) (hdr : Option Header) :
    State.next (.receivingData rem) buf hdr =
      .ok
        (if rem - min rem buf.length = 0 then .receivedData
         else .receivingData (rem - min rem buf.length),
        min rem buf.length) := by
  simp only [State.next]
  split <;> rfl

theorem next_al_eq (rem : Nat) (buf : List UInt8) (hdr : Option Header) :
    State.next (.aligningData rem) buf hdr =
      .ok
        (if rem - min rem buf.length = 0 then .alignedData
         else .aligningData (rem - min rem buf.length),
        min rem buf.length) := by
  simp only [State.next]
  split <;> rfl

theorem next_re_eq (rem : Nat) (buf : List UInt8) (hdr : Option Header) :
    State.next (.receivingEof rem) buf hdr =
      if (buf.take (min rem buf.length)).all (· == 0) then
        .ok
          (if rem - min rem buf.length = 0 then .receivedEof
           else .receivingEof (rem - min rem buf.length),
          min rem buf.length)
      else
        .error .expectingEmptyBlock := by
  simp only [State.next]
  by_cases hemp : (buf.take (min rem buf.length)).all (· == 0)
  · rw [if_pos hemp]
    simp only [hemp, Bool.not_true, Bool.false_eq_true, if_false]
    split <;> rfl
  · rw [if_neg hemp]
    simp only [Bool.not_eq_true'] at hemp
    simp [hemp]

theorem all_take {p : UInt8 → Bool} {l : List UInt8} (h : l.all p = true) (k : Nat) :
    (l.take k).all p = true := by
  rw [List.all_eq_true] at h ⊢
  intro x hx
  exact h x (List.mem_of_mem_take hx)

/-- When `next` consumes no more than `m` bytes, it behaves identically
on the `m`-byte prefix of the buffer. -/
theorem next_take_of_le {s : State} {buf : List UInt8} {hdr : Option Header}
    {s' : State} {n m : Nat} (h : s.next buf hdr = .ok (s', n)) (hnm : n ≤ m)
    (hm : m ≤ buf.length) : s.next (buf.take m) hdr = .ok (s', n) := by
  have hlen : (buf.take m).length = m := by
    rw [List.length_take]; omega
  cases s with
  | expectingHeader => exact h
  | receivedHeader => exact h
  | receivedData => exact h
  | alignedData => exact h
  | receivedEof => exact h
  | receivingData rem =>
    rw [next_rd_eq] at h ⊢
    obtain ⟨h1, h2⟩ := ok_pair_inj h
    rw [hlen]
    have hmin : min rem m = min rem buf.length := by omega
    rw [hmin, h1, h2]
  | aligningData rem =>
    rw [next_al_eq] at h ⊢
    obtain ⟨h1, h2⟩ := ok_pair_inj h
    rw [hlen]
    have hmin : min rem m = min rem buf.length := by omega
    rw [hmin, h1, h2]
  | receivingHeader rem ie =>
    rw [next_rh_eq] at h ⊢
    obtain ⟨h1, h2⟩ := ok_pair_inj h
    rw [hlen]
    have hmin : min rem m = min rem buf.length := by omega
    rw [hmin, List.take_take]
    have hmin2 : min (min rem buf.length) m = min rem buf.length := by omega
    rw [hmin2, h1, h2]
  | receivingEof rem =>
    rw [next_re_eq] at h ⊢
    have h2 : n = min rem buf.length := by
      split at h
      · exact (ok_pair_inj h).2.symm
      · exact absurd h (by simp)
    rw [hlen]
    have hmin : min rem m = min rem buf.length := by omega
    rw [hmin, List.take_take]
    have hmin2 : min (min rem buf.length) m = min rem buf.length := by omega
    rw [hmin2]
    exact h

/-- When `next` consumes strictly more than `m` bytes, on the `m`-byte
prefix it consumes exactly `m` and stays in progress. -/
theorem next_take_of_lt {s : State} {buf : List UInt8} {hdr : Option Header}
    {s' : State} {n m : Nat} (h : s.next buf hdr = .ok (s', n)) (hm : m < n) :
    ∃ mid, s.next (buf.take m) hdr = .ok (mid, m) := by
  have hn := next_le_length h
  have hlen : (buf.take m).length = m := by
    rw [List.length_take]; omega
  cases s with
  | expectingHeader =>
    obtain ⟨-, h2⟩ := ok_pair_inj h
    omega
  | receivedHeader =>
    cases hdr with
    | none => simp [State.next] at h
    | some hd =>
      cases he : hd.entry_size with
      | error e => simp [State.next, he] at h
      | ok k =>
        simp only [State.next, he] at h
        obtain ⟨-, h2⟩ := ok_pair_inj h
        omega
  | receivedData =>
    cases hdr with
    | none => simp [State.next] at h
    | some hd =>
      cases he : hd.entry_size with
      | error e => simp [State.next, he] at h
      | ok k =>
        simp only [State.next, he] at h
        obtain ⟨-, h2⟩ := ok_pair_inj h
        omega
  | alignedData =>
    obtain ⟨-, h2⟩ := ok_pair_inj h
    omega
  | receivedEof => simp [State.next] at h
  | receivingData rem =>
    rw [next_rd_eq] at h ⊢
    obtain ⟨-, h2⟩ := ok_pair_inj h
    rw [hlen]
    have hmin : min rem m = m := by omega
    rw [hmin, if_neg (by omega : ¬rem - m = 0)]
    exact ⟨_, rfl⟩
  | aligningData rem =>
    rw [next_al_eq] at h ⊢
    obtain ⟨-, h2⟩ := ok_pair_inj h
    rw [hlen]
    have hmin : min rem m = m := by omega
    rw [hmin, if_neg (by omega : ¬rem - m = 0)]
    exact ⟨_, rfl⟩
  | receivingHeader rem ie =>
    rw [next_rh_eq] at h ⊢
    obtain ⟨-, h2⟩ := ok_pair_inj h
    rw [hlen]
    have hmin : min rem m = m := by omega
    rw [hmin, if_neg (by omega : ¬rem - m = 0)]
    exact ⟨_, rfl⟩
  | receivingEof rem =>
    rw [next_re_eq] at h ⊢
    have hz : (buf.take (min rem buf.length)).all (· == 0) = true := by
      by_contra hc
      rw [if_neg hc] at h
      exact absurd h (by simp)
    rw [if_pos hz] at h
    obtain ⟨-, h2⟩ := ok_pair_inj h
    rw [hlen]
    have hmin : min rem m = m := by omega
    rw [hmin]
    have hz2 : ((buf.take m).take m).all (· == 0) = true := by
      have h3 := all_take hz m
      rw [List.take_take] at h3
      rw [List.take_take]
      have e1 : min m (min rem buf.length) = min m m := by omega
      rw [e1] at h3
      exact h3
    rw [if_pos hz2, if_neg (by omega : ¬rem - m = 0)]
    exact ⟨_, rfl⟩

theorem measure_decreases {s : State} {buf : List UInt8} {hdr : Option Header}
    {s1 : State} {n1 : Nat} (hn : s.next buf hdr = .ok (s1, n1))
    (hlt : n1 < buf.length) :
    8 * (buf.length - n1) + rank s1 < 8 * buf.length + rank s := by
  rcases Nat.eq_zero_or_pos n1 with h0 | hpos
  · subst h0
    have hbuf : buf ≠ [] := by intro hb; subst hb; simp at hlt
    have := rank_decreases hn hbuf
    omega
  · have := rank_le_seven s1
    have := rank_le_seven s
    omega

theorem takeUntilGo_le (stop : List State) (hdr : Option Header) :
    ∀ (k : Nat) (s : State) (buf : List UInt8) {s' : State} {n : Nat},
      8 * buf.length + rank s < k → takeUntilGo stop hdr s buf = .ok (s', n) →
      n ≤ buf.length := by
  intro k
  induction k with
  | zero => intro s buf s' n hk; omega
  | succ k ih =>
    intro s buf s' n hk h
    cases hn : s.next buf hdr with
    | error e =>
      rw [takeUntilGo_error hn] at h
      exact absurd h (by simp)
    | ok p =>
      obtain ⟨s1, n1⟩ := p
      by_cases hc : s1 ∈ stop ∨ buf.length ≤ n1
      · rw [takeUntilGo_stop hn hc] at h
        obtain ⟨-, h2⟩ := ok_pair_inj h
        have := next_le_length hn
        omega
      · rw [takeUntilGo_cont hn hc] at h
        push_neg at hc
        cases hrec : takeUntilGo stop hdr s1 (buf.drop n1) with
        | error e =>
          rw [hrec] at h
          exact absurd h (by simp)
        | ok q =>
          obtain ⟨s2, n2⟩ := q
          rw [hrec] at h
          obtain ⟨-, h2⟩ := ok_pair_inj h
          have hmeas : 8 * (buf.drop n1).length + rank s1 < k := by
            have := measure_decreases hn hc.2
            rw [List.length_drop]
            omega
          have := ih s1 (buf.drop n1) hmeas hrec
          rw [List.length_drop] at this
          omega

/-- Prefix monotonicity of the `take_until` loop: a run that consumes
its whole buffer also runs successfully on every prefix, consuming
exactly that prefix; at the full length it reproduces the same final
state. -/
theorem takeUntilGo_take (stop : List State) (hdr : Option Header) :
    ∀ (k : Nat) (s : State) (buf : List UInt8) {s' : State},
      8 * buf.length + rank s < k →
      takeUntilGo stop hdr s buf = .ok (s', buf.length) →
      ∀ m, m ≤ buf.length →
        ∃ s'', takeUntilGo stop hdr s (buf.take m) = .ok (s'', m) ∧
          (m = buf.length → s'' = s') := by
  intro k
  induction k with
  | zero => intro s buf s' hk; omega
  | succ k ih =>
    intro s buf s' hk h m hm
    by_cases hfull : m = buf.length
    · subst hfull
      rw [List.take_length]
      exact ⟨s', h, fun _ => rfl⟩
    have hmlt : m < buf.length := by omega
    cases hn : s.next buf hdr with
    | error e =>
      rw [takeUntilGo_error hn] at h
      exact absurd h (by simp)
    | ok p =>
      obtain ⟨s1, n1⟩ := p
      by_cases hc : s1 ∈ stop ∨ buf.length ≤ n1
      · rw [takeUntilGo_stop hn hc] at h
        obtain ⟨h1, h2⟩ := ok_pair_inj h
        obtain ⟨mid, hmid⟩ := @next_take_of_lt _ _ _ _ _ m hn (by omega)
        refine ⟨mid, ?_, fun hq => absurd hq (by omega)⟩
        exact takeUntilGo_stop hmid (Or.inr (by rw [List.length_take]; omega))
      · push_neg at hc
        obtain ⟨hstop, hlt⟩ := hc
        rw [takeUntilGo_cont hn (by push_neg; exact ⟨hstop, hlt⟩)] at h
        cases hrec : takeUntilGo stop hdr s1 (buf.drop n1) with
        | error e =>
          rw [hrec] at h
          exact absurd h (by simp)
        | ok q =>
          obtain ⟨s2, n2⟩ := q
          rw [hrec] at h
          obtain ⟨h1, h2⟩ := ok_pair_inj h
          rcases lt_trichotomy m n1 with hmn | hmn | hmn
          · obtain ⟨mid, hmid⟩ := next_take_of_lt hn hmn
            refine ⟨mid, ?_, fun hq => absurd hq (by omega)⟩
            exact takeUntilGo_stop hmid (Or.inr (by rw [List.length_take]; omega))
          · subst hmn
            have hb1 := next_take_of_le hn (Nat.le_refl _) (Nat.le_of_lt hmlt)
            refine ⟨s1, ?_, fun hq => absurd hq (by omega)⟩
            exact takeUntilGo_stop hb1 (Or.inr (by rw [List.length_take]; omega))
          · have hb1 := next_take_of_le hn (Nat.le_of_lt hmn) (Nat.le_of_lt hmlt)
            have hdt : (buf.take m).drop n1 = (buf.drop n1).take (m - n1) :=
              List.drop_take ..
            have hmeas : 8 * (buf.drop n1).length + rank s1 < k := by
              have := measure_decreases hn hlt
              rw [List.length_drop]
              omega
            have hrec_full : takeUntilGo stop hdr s1 (buf.drop n1) =
                .ok (s', (buf.drop n1).length) := by
              rw [hrec, h1, List.length_drop]
              have hn2 : n2 = buf.length - n1 := by omega
              rw [hn2]
            obtain ⟨s'', hs'', -⟩ := ih s1 (buf.drop n1) hmeas hrec_full (m - n1)
              (by rw [List.length_drop]; omega)
            rw [← hdt] at hs''
            refine ⟨s'', ?_, fun hq => absurd hq (by omega)⟩
            rw [takeUntilGo_cont hb1
              (by push_neg; exact ⟨hstop, by rw [List.length_take]; omega⟩)]
            rw [hs'']
            dsimp only
            have : n1 + (m - n1) = m := by omega
            rw [this]

theorem takeUntilGo_le' {stop : List State} {hdr : Option Header} {s : State}
    {buf : List UInt8} {s' : State} {n : Nat}
    (h : takeUntilGo stop hdr s buf = .ok (s', n)) : n ≤ buf.length :=
  takeUntilGo_le stop hdr (8 * buf.length + rank s + 1) s buf (by omega) h

theorem takeUntilGo_take' {stop : List State} {hdr : Option Header} {s : State}
    {buf : List UInt8} {s' : State}
    (h : takeUntilGo stop hdr s buf = .ok (s', buf.length)) {m : Nat}
    (hm : m ≤ buf.length) :
    ∃ s'', takeUntilGo stop hdr s (buf.take m) = .ok (s'', m) ∧
      (m = buf.length → s'' = s') :=
  takeUntilGo_take stop hdr (8 * buf.length + rank s + 1) s buf (by omega) h m hm

/-- A successful `next` is also successful, consuming 0 bytes, on an
empty buffer. -/
theorem next_ok_nil {s : State} {buf : List UInt8} {hdr : Option Header}
    {s' : State} {n : Nat} (h : s.next buf hdr = .ok (s', n)) :
    ∃ t, s.next [] hdr = .ok (t, 0) := by
  cases s with
  | expectingHeader => exact ⟨_, rfl⟩
  | alignedData => exact ⟨_, rfl⟩
  | receivedEof => simp [State.next] at h
  | receivedHeader =>
    cases hdr with
    | none => simp [State.next] at h
    | some hd =>
      cases he : hd.entry_size with
      | error e => simp [State.next, he] at h
      | ok k => exact ⟨.receivingData k, by simp [State.next, he]⟩
  | receivedData =>
    cases hdr with
    | none => simp [State.next] at h
    | some hd =>
      cases he : hd.entry_size with
      | error e => simp [State.next, he] at h
      | ok k =>
        exact ⟨.aligningData (nextMultipleOf k BLOCK_SIZE - k), by simp [State.next, he]⟩
  | receivingHeader rem ie =>
    have := next_rh_eq rem ie [] hdr
    simp only [List.length_nil, Nat.min_zero, List.take_zero, List.all_nil,
      Nat.sub_zero, Bool.and_true] at this
    exact ⟨_, this⟩
  | receivingData rem =>
    have := next_rd_eq rem [] hdr
    simp only [List.length_nil, Nat.min_zero, Nat.sub_zero] at this
    exact ⟨_, this⟩
  | aligningData rem =>
    have := next_al_eq rem [] hdr
    simp only [List.length_nil, Nat.min_zero, Nat.sub_zero] at this
    exact ⟨_, this⟩
  | receivingEof rem =>
    have := next_re_eq rem [] hdr
    simp only [List.length_nil, Nat.min_zero, List.take_zero, List.all_nil,
      Nat.sub_zero, if_true] at this
    exact ⟨_, this⟩

/-- A `take_until` run that succeeds on some buffer also succeeds on the
empty buffer, consuming 0 bytes. -/
theorem takeUntilGo_nil_ok {stop : List State} {hdr : Option Header} {s : State}
    {buf : List UInt8} {r : State × Nat} (h : takeUntilGo stop hdr s buf = .ok r) :
    ∃ t, takeUntilGo stop hdr s [] = .ok (t, 0) := by
  cases hn : s.next buf hdr with
  | error e =>
    rw [takeUntilGo_error hn] at h
    exact absurd h (by simp)
  | ok p =>
    obtain ⟨t, ht⟩ := next_ok_nil hn
    exact ⟨t, takeUntilGo_stop ht (Or.inr (by simp))⟩

theorem takeSlicesGo_skip_empty (hdr : Option Header) (s : State) (cur : Nat)
    (nn : Bool) (rest : List (List UInt8)) :
    takeSlicesGo hdr s cur nn ([] :: rest) = takeSlicesGo hdr s cur nn rest := by
  simp [takeSlicesGo]

/-- `take_prefix` keeps a slice whole when the requested length covers it. -/
theorem take_front_cons_ge {b : List UInt8} {rest : List (List UInt8)} {m : Nat}
    (hle : b.length ≤ m) :
    (take_front (b :: rest) m).iter_buffers =
      b :: (take_front rest (m - b.length)).iter_buffers := by
  rcases hps : split_at_byte_offset rest (m - b.length) with ⟨p, suf⟩
  simp [take_front, split_at_byte_offset, if_pos hle, hps, SplitPre.iter_buffers]

theorem takeSlicesGo_le (hdr : Option Header) :
    ∀ (slices : List (List UInt8)) (s : State) (cur : Nat) (nn : Bool) {s' : State}
      {k : Nat}, takeSlicesGo hdr s cur nn slices = .ok (s', k) →
      k ≤ cur + bytes_len slices := by
  intro slices
  induction slices with
  | nil =>
    intro s cur nn s' k h
    simp only [takeSlicesGo] at h
    split at h
    · cases ht : State.take_until s stopStates [] hdr with
      | error e =>
        rw [ht] at h
        exact absurd h (by simp)
      | ok q =>
        obtain ⟨t, n'⟩ := q
        rw [ht] at h
        obtain ⟨-, h2⟩ := ok_pair_inj h
        rw [take_until_eq_go] at ht
        have := takeUntilGo_le' ht
        simp only [List.length_nil, Nat.le_zero_eq] at this
        simp only [bytes_len, List.foldl_nil]
        omega
    · obtain ⟨-, h2⟩ := ok_pair_inj h
      simp only [bytes_len, List.foldl_nil]
      omega
  | cons b rest ih =>
    intro s cur nn s' k h
    by_cases hb : b = []
    · subst hb
      rw [takeSlicesGo_skip_empty] at h
      have := ih s cur nn h
      rw [bytes_len_cons, List.length_nil]
      omega
    · simp only [takeSlicesGo, if_neg hb] at h
      cases ht : State.take_until s stopStates b hdr with
      | error e =>
        rw [ht] at h
        exact absurd h (by simp)
      | ok q =>
        obtain ⟨s1, n1⟩ := q
        rw [ht] at h
        dsimp only at h
        rw [take_until_eq_go] at ht
        have hle1 := takeUntilGo_le' ht
        rw [bytes_len_cons]
        split at h
        · obtain ⟨-, h2⟩ := ok_pair_inj h
          omega
        · have := ih s1 (cur + n1) false h
          omega

/-- Processing the partial-slice prefix of a fully consumed slice. -/
theorem takeSlicesGo_front_partial (hdr : Option Header) {s : State}
    {b : List UInt8} {s1 : State}
    (htfull : takeUntilGo stopStates hdr s b = .ok (s1, b.length)) (hb : b ≠ [])
    (rest : List (List UInt8)) (cur : Nat) (nn : Bool) {m : Nat}
    (hmlt : m < b.length) :
    ∃ s'', takeSlicesGo hdr s cur nn ((take_front (b :: rest) m).iter_buffers) =
      .ok (s'', cur + m) := by
  have hblen : 0 < b.length := List.length_pos.mpr hb
  rcases Nat.eq_zero_or_pos m with hm0 | hmpos
  · subst hm0
    have hfront : (take_front (b :: rest) 0).iter_buffers = [[]] := by
      simp only [take_front, split_at_byte_offset,
        if_neg (by omega : ¬b.length ≤ 0), reduceIte]
      rfl
    rw [hfront, takeSlicesGo_skip_empty]
    cases nn with
    | false => exact ⟨s, by simp [takeSlicesGo]⟩
    | true =>
      obtain ⟨t, ht⟩ := takeUntilGo_nil_ok htfull
      rw [← take_until_eq_go] at ht
      refine ⟨t, ?_⟩
      simp [takeSlicesGo, ht]
  · have hfront : (take_front (b :: rest) m).iter_buffers = [b.take m] := by
      simp only [take_front, split_at_byte_offset,
        if_neg (by omega : ¬b.length ≤ m), if_neg (by omega : ¬m = 0)]
      rfl
    rw [hfront]
    have htm : ¬b.take m = [] := by
      rw [List.take_eq_nil_iff]
      push_neg
      exact ⟨by omega, hb⟩
    obtain ⟨s'', hs'', -⟩ := takeUntilGo_take' htfull (Nat.le_of_lt hmlt)
    simp only [takeSlicesGo, if_neg htm]
    rw [← take_until_eq_go] at hs''
    rw [hs'']
    dsimp only
    by_cases hst : s'' ∈ stopStates
    · rw [if_pos hst]
      exact ⟨s'', rfl⟩
    · rw [if_neg hst]
      exact ⟨s'', by simp [takeSlicesGo]⟩

/-- The main prefix-replay lemma for `take_slices`: a run that consumes
exactly the total byte length of its slices also succeeds on the
`take_prefix` of any smaller byte length, consuming exactly that
length, and at the full length it reproduces the same final state. -/
theorem takeSlicesGo_take (hdr : Option Header) :
    ∀ (slices : List (List UInt8)) (s : State) (cur : Nat) (nn : Bool) {s' : State},
      takeSlicesGo hdr s cur nn slices = .ok (s', cur + bytes_len slices) →
      ∀ m, m ≤ bytes_len slices →
        ∃ s'', takeSlicesGo hdr s cur nn ((take_front slices m).iter_buffers) =
            .ok (s'', cur + m) ∧ (m = bytes_len slices → s'' = s') := by
  intro slices
  induction slices with
  | nil =>
    intro s cur nn s' h m hm
    have hm0 : m = 0 := by
      simp only [bytes_len, List.foldl_nil] at hm
      omega
    subst hm0
    have hfront : (take_front ([] : List (List UInt8)) 0).iter_buffers = [[]] := rfl
    rw [hfront, takeSlicesGo_skip_empty]
    simp only [bytes_len, List.foldl_nil, Nat.add_zero] at h ⊢
    exact ⟨s', h, fun _ => rfl⟩
  | cons b rest ih =>
    intro s cur nn s' h m hm
    by_cases hb : b = []
    · subst hb
      rw [takeSlicesGo_skip_empty] at h
      rw [bytes_len_cons, List.length_nil, Nat.zero_add] at h hm
      rw [take_front_cons_ge (by simp), takeSlicesGo_skip_empty, List.length_nil,
        Nat.sub_zero]
      obtain ⟨s'', h1, h2⟩ := ih s cur nn h m hm
      refine ⟨s'', h1, fun hq => h2 ?_⟩
      rw [bytes_len_cons, List.length_nil] at hq
      omega
    · simp only [takeSlicesGo, if_neg hb] at h
      cases ht : State.take_until s stopStates b hdr with
      | error e =>
        rw [ht] at h
        exact absurd h (by simp)
      | ok q =>
        obtain ⟨s1, n1⟩ := q
        rw [ht] at h
        dsimp only at h
        rw [take_until_eq_go] at ht
        have hle1 := takeUntilGo_le' ht
        split at h
        · -- take_until stopped at a stop state, so the tail must be empty
          rename_i hstop
          obtain ⟨h1, h2⟩ := ok_pair_inj h
          rw [bytes_len_cons] at h2
          have hrest0 : bytes_len rest = 0 := by omega
          have hn1 : n1 = b.length := by omega
          have htfull : takeUntilGo stopStates hdr s b = .ok (s1, b.length) := by
            rw [ht, hn1]
          by_cases hbm : b.length ≤ m
          · have hmeq : m = b.length := by
              rw [bytes_len_cons] at hm
              omega
            rw [take_front_cons_ge hbm]
            simp only [takeSlicesGo, if_neg hb]
            rw [← take_until_eq_go] at ht
            rw [ht]
            dsimp only
            rw [if_pos hstop]
            refine ⟨s1, ?_, fun _ => h1⟩
            rw [hn1, hmeq]
          · have hmlt : m < b.length := by omega
            obtain ⟨s'', hs''⟩ := takeSlicesGo_front_partial hdr htfull hb rest cur nn hmlt
            refine ⟨s'', hs'', fun hq => ?_⟩
            rw [bytes_len_cons] at hq
            omega
        · -- take_until exhausted the slice; recurse into the tail
          rename_i hstop
          have hle2 := takeSlicesGo_le hdr rest s1 (cur + n1) false h
          rw [bytes_len_cons] at hle2
          have hn1 : n1 = b.length := by
            have hcnt : cur + (b.length + bytes_len rest) = cur + bytes_len (b :: rest) := by
              rw [bytes_len_cons]
            omega
          have htfull : takeUntilGo stopStates hdr s b = .ok (s1, b.length) := by
            rw [ht, hn1]
          have h' : takeSlicesGo hdr s1 (cur + n1) false rest =
              .ok (s', (cur + n1) + bytes_len rest) := by
            rw [h]
            have : cur + bytes_len (b :: rest) = cur + n1 + bytes_len rest := by
              rw [bytes_len_cons]
              omega
            rw [this]
          by_cases hbm : b.length ≤ m
          · rw [take_front_cons_ge hbm]
            simp only [takeSlicesGo, if_neg hb]
            rw [← take_until_eq_go] at ht
            rw [ht]
            dsimp only
            rw [if_neg hstop]
            obtain ⟨s'', hs'', heq⟩ := ih s1 (cur + n1) false h' (m - b.length)
              (by rw [bytes_len_cons] at hm; omega)
            refine ⟨s'', ?_, fun hq => heq ?_⟩
            · rw [hs'']
              have : cur + n1 + (m - b.length) = cur + m := by omega
              rw [this]
            · rw [bytes_len_cons] at hq
              omega
          · have hmlt : m < b.length := by omega
            obtain ⟨s'', hs''⟩ := takeSlicesGo_front_partial hdr htfull hb rest cur nn hmlt
            refine ⟨s'', hs'', fun hq => ?_⟩
            exfalso
            rw [bytes_len_cons] at hq
            have hres := takeSlicesGo_le hdr rest s1 (cur + n1) false h
            omega

/-- C4: Prefix monotonicity of the state machine. For every starting
state, header argument and slice list on which `take_slices` succeeds
and reports exactly the full byte length consumed, `take_slices` from
the same starting state over the slices of `take_prefix(m)` — the first
`m` bytes, for any `m` at most that length — also succeeds and reports
exactly `m` consumed, so the write driver's replay over the first
`bytes_written` bytes after a short write cannot fail; and when `m`
equals the full length the replayed state equals the pre-validated
state. -/
theorem take_slices_replay (s : State) (hdr : Option Header)
    (slices : List (List UInt8)) (s' : State)
    (h : s.take_slices slices hdr = .ok (s', bytes_len slices)) :
    ∀ m, m ≤ bytes_len slices →
      ∃ s'', s.take_slices ((take_front slices m).iter_buffers) hdr = .ok (s'', m) ∧
        (m = bytes_len slices → s'' = s') := by
  intro m hm
  rw [State.take_slices] at h
  obtain ⟨s'', h1, h2⟩ := takeSlicesGo_take hdr slices s 0 true
    (by rw [h]; rw [Nat.zero_add]) m hm
  rw [Nat.zero_add] at h1
  exact ⟨s'', h1, h2⟩

/-! ## The round trip (towards C1)

The canonical byte stream of an entry sequence: each entry contributes
its 512-byte header block, its payload, and zero padding up to the next
block boundary; the archive ends with two zero blocks. -/

/-- Padding from a payload length up to the next block boundary. -/
def padLen (n : Nat) : Nat :=
  nextMultipleOf n BLOCK_SIZE - n

/-- The canonical on-stream bytes of one entry. -/
def entryBytes (e : Header × List UInt8) : List UInt8 :=
  e.1.bytes ++ e.2 ++ List.replicate (padLen e.2.length) (0 : UInt8)

/-- The canonical byte stream of an entry sequence. -/
def streamOf (entries : List (Header × List UInt8)) : List UInt8 :=
  (entries.map entryBytes).flatten ++ List.replicate (2 * BLOCK_SIZE) (0 : UInt8)

/-- A well-formed finalized entry: the header block is 512 bytes and not
all zero, its size field holds the payload length, and reinterpreting
its bytes as a block recovers it (so its stored checksum is the computed
one). -/
def ValidEntry (e : Header × List UInt8) : Prop :=
  e.1.bytes.length = BLOCK_SIZE ∧
  e.1.bytes.all (· == 0) = false ∧
  e.1.size? = .ok e.2.length ∧
  as_header e.1.bytes = .ok e.1

instance (e : Header × List UInt8) : Decidable (ValidEntry e) := by
  unfold ValidEntry
  infer_instance

theorem padLen_lt (n : Nat) : padLen n < BLOCK_SIZE := by
  unfold padLen nextMultipleOf BLOCK_SIZE
  omega

theorem calc_cksum_ne_zero (bytes : List UInt8) : calc_cksum bytes ≠ 0 := by
  unfold calc_cksum
  omega

/-- A valid entry's stored checksum parses to the computed checksum. -/
theorem valid_cksum {e : Header × List UInt8} (hv : ValidEntry e) :
    e.1.cksum = .ok (calc_cksum e.1.bytes) := by
  obtain ⟨h512, -, -, hah⟩ := hv
  unfold as_header at hah
  rw [if_pos h512] at hah
  unfold Header.cksum
  cases hp : parseOctal ((e.1.bytes.drop 148).take 8) with
  | none => rw [hp] at hah; exact absurd hah (by simp)
  | some n =>
    rw [hp] at hah
    dsimp only at hah
    split at hah
    · rename_i heq
      rw [heq]
    · exact absurd hah (by simp)

theorem replicate_all_zero (n : Nat) :
    (List.replicate n (0 : UInt8)).all (· == 0) = true := by
  induction n with
  | zero => rfl
  | succ n ih => simp [List.replicate_succ, ih]

theorem bytes_len_pair (b : List UInt8) : bytes_len [b, []] = b.length := by
  simp [bytes_len]

/-- `take_prefix` over a single slice of exactly the requested length. -/
theorem take_front_single (b : List UInt8) :
    (take_front [b] b.length).iter_buffers = [b, []] := by
  simp [take_front, split_at_byte_offset, SplitPre.iter_buffers]

/-- A trailing empty slice does not change `take_slices`. -/
theorem takeSlicesGo_append_nil (hdr : Option Header) :
    ∀ (l : List (List UInt8)) (s : State) (cur : Nat) (nn : Bool),
      takeSlicesGo hdr s cur nn (l ++ [[]]) = takeSlicesGo hdr s cur nn l := by
  intro l
  induction l with
  | nil =>
    intro s cur nn
    rw [List.nil_append, takeSlicesGo_skip_empty]
  | cons b rest ih =>
    intro s cur nn
    by_cases hb : b = []
    · subst hb
      rw [List.cons_append, takeSlicesGo_skip_empty, takeSlicesGo_skip_empty, ih]
    · rw [List.cons_append]
      simp only [takeSlicesGo, if_neg hb]
      cases State.take_until s stopStates b hdr with
      | error e => rfl
      | ok q =>
        obtain ⟨s1, n1⟩ := q
        dsimp only
        split
        · rfl
        · exact ih s1 (cur + n1) false

theorem take_slices_snoc (s : State) (b : List UInt8) (hdr : Option Header) :
    s.take_slices [b, []] hdr = s.take_slices [b] hdr :=
  takeSlicesGo_append_nil hdr [b] s 0 true

theorem buffered_commitRead (b : Buf) (amt : Nat) :
    (b.commitRead amt).buffered_bytes = b.buffered_bytes.drop amt := by
  simp only [Buf.commitRead, Buf.buffered_bytes, List.drop_drop]

theorem fillBuf_nonempty {a : RArchive} (h : a.buf.buffered_bytes ≠ []) :
    fillBuf a = .ok a := by
  unfold fillBuf
  rw [if_neg h]

theorem fillBuf_state {a a1 : RArchive} (h : fillBuf a = .ok a1) :
    a1.state = a.state := by
  unfold fillBuf at h
  dsimp only at h
  split at h
  · split at h
    · split at h
      · exact absurd h (by simp)
      · split at h
        · exact absurd h (by simp)
        · injection h with h
          subst h
          rfl
    · injection h with h
      subst h
      rfl
  · injection h with h
    subst h
    rfl

/-! ### `take_until` evaluations along the canonical stream -/

theorem tu_expecting_nil (hdr : Option Header) :
    State.take_until .expectingHeader stopStates [] hdr =
      .ok (.receivingHeader BLOCK_SIZE true, 0) := by
  rw [take_until_eq_go]
  exact takeUntilGo_stop rfl (Or.inr (by simp))

/-- From `ReceivingHeader(512, true)`, a full non-zero header block
yields `ReceivedHeader`. -/
theorem tu_rh_header {b : List UInt8} (hlen : b.length = BLOCK_SIZE)
    (hnz : b.all (· == 0) = false) (hdr : Option Header) :
    State.take_until (.receivingHeader BLOCK_SIZE true) stopStates b hdr =
      .ok (.receivedHeader, BLOCK_SIZE) := by
  rw [take_until_eq_go]
  have hnext : State.next (.receivingHeader BLOCK_SIZE true) b hdr =
      .ok (.receivedHeader, BLOCK_SIZE) := by
    rw [next_rh_eq, hlen, Nat.min_self, Nat.sub_self, ← hlen, List.take_length,
      hnz]
    simp
  exact takeUntilGo_stop hnext (Or.inl (by simp [stopStates]))

/-- From `ExpectingHeader`, a full non-zero header block yields
`ReceivedHeader` through the zero-byte marker transition. -/
theorem tu_expecting_header {b : List UInt8} (hlen : b.length = BLOCK_SIZE)
    (hnz : b.all (· == 0) = false) (hdr : Option Header) :
    State.take_until .expectingHeader stopStates b hdr =
      .ok (.receivedHeader, BLOCK_SIZE) := by
  rw [take_until_eq_go]
  have h1 : State.next .expectingHeader b hdr =
      .ok (.receivingHeader BLOCK_SIZE true, 0) := rfl
  rw [takeUntilGo_cont h1 (by simp [stopStates, hlen, BLOCK_SIZE])]
  rw [List.drop_zero, ← take_until_eq_go, tu_rh_header hlen hnz]
  rfl

/-- From `ReceivingData(k)` over exactly `k` buffered bytes. -/
theorem tu_rd_full {b : List UInt8} (k : Nat) (hlen : b.length = k)
    (hdr : Option Header) :
    State.take_until (.receivingData k) stopStates b hdr =
      .ok (.receivedData, k) := by
  rw [take_until_eq_go]
  have hnext : State.next (.receivingData k) b hdr = .ok (.receivedData, k) := by
    rw [next_rd_eq, hlen, Nat.min_self, Nat.sub_self]
    simp
  exact takeUntilGo_stop hnext (Or.inr (by rw [hlen]))

/-- From `AligningData(p)` over exactly `p` buffered bytes. -/
theorem tu_al_full {b : List UInt8} (p : Nat) (hlen : b.length = p)
    (hdr : Option Header) :
    State.take_until (.aligningData p) stopStates b hdr =
      .ok (.alignedData, p) := by
  rw [take_until_eq_go]
  have hnext : State.next (.aligningData p) b hdr = .ok (.alignedData, p) := by
    rw [next_al_eq, hlen, Nat.min_self, Nat.sub_self]
    simp
  exact takeUntilGo_stop hnext (Or.inr (by rw [hlen]))

/-- From `ReceivingHeader(512, true)`, a zero block begins the EOF
marker. -/
theorem tu_rh_zeros (hdr : Option Header) :
    State.take_until (.receivingHeader BLOCK_SIZE true) stopStates
      (List.replicate BLOCK_SIZE (0 : UInt8)) hdr =
      .ok (.receivingEof BLOCK_SIZE, BLOCK_SIZE) := by
  rw [take_until_eq_go]
  have hnext : State.next (.receivingHeader BLOCK_SIZE true)
      (List.replicate BLOCK_SIZE (0 : UInt8)) hdr =
      .ok (.receivingEof BLOCK_SIZE, BLOCK_SIZE) := by
    rw [next_rh_eq]
    simp [replicate_all_zero, List.take_replicate]
  exact takeUntilGo_stop hnext (Or.inr (by simp))

/-- From `ExpectingHeader`, a zero block begins the EOF marker. -/
theorem tu_expecting_zeros (hdr : Option Header) :
    State.take_until .expectingHeader stopStates
      (List.replicate BLOCK_SIZE (0 : UInt8)) hdr =
      .ok (.receivingEof BLOCK_SIZE, BLOCK_SIZE) := by
  rw [take_until_eq_go]
  have h1 : State.next .expectingHeader (List.replicate BLOCK_SIZE (0 : UInt8)) hdr =
      .ok (.receivingHeader BLOCK_SIZE true, 0) := rfl
  rw [takeUntilGo_cont h1 (by simp [stopStates, BLOCK_SIZE])]
  rw [List.drop_zero, ← take_until_eq_go, tu_rh_zeros]
  rfl

/-- From `ReceivingEof(512)`, the second zero block completes EOF. -/
theorem tu_re_zeros (hdr : Option Header) :
    State.take_until (.receivingEof BLOCK_SIZE) stopStates
      (List.replicate BLOCK_SIZE (0 : UInt8)) hdr =
      .ok (.receivedEof, BLOCK_SIZE) := by
  rw [take_until_eq_go]
  have hnext : State.next (.receivingEof BLOCK_SIZE)
      (List.replicate BLOCK_SIZE (0 : UInt8)) hdr =
      .ok (.receivedEof, BLOCK_SIZE) := by
    rw [next_re_eq]
    simp [replicate_all_zero, List.take_replicate]
  exact takeUntilGo_stop hnext (Or.inl (by simp [stopStates]))

/-! ### `take_slices` evaluations along the canonical stream -/

theorem ts_expecting_nil (hdr : Option Header) :
    State.take_slices .expectingHeader [[]] hdr =
      .ok (.receivingHeader BLOCK_SIZE true, 0) := by
  rw [State.take_slices, takeSlicesGo_skip_empty]
  simp [takeSlicesGo, tu_expecting_nil]

theorem ts_rh_header {b : List UInt8} (hlen : b.length = BLOCK_SIZE)
    (hnz : b.all (· == 0) = false) (hdr : Option Header) :
    State.take_slices (.receivingHeader BLOCK_SIZE true) [b] hdr =
      .ok (.receivedHeader, BLOCK_SIZE) := by
  have hb : b ≠ [] := by
    intro hb
    rw [hb] at hlen
    simp [BLOCK_SIZE] at hlen
  rw [State.take_slices]
  simp only [takeSlicesGo, if_neg hb, tu_rh_header hlen hnz]
  simp [stopStates]

theorem ts_expecting_header {b : List UInt8} (hlen : b.length = BLOCK_SIZE)
    (hnz : b.all (· == 0) = false) (hdr : Option Header) :
    State.take_slices .expectingHeader [b] hdr =
      .ok (.receivedHeader, BLOCK_SIZE) := by
  have hb : b ≠ [] := by
    intro hb
    rw [hb] at hlen
    simp [BLOCK_SIZE] at hlen
  rw [State.take_slices]
  simp only [takeSlicesGo, if_neg hb, tu_expecting_header hlen hnz]
  simp [stopStates]

theorem ts_rd_full {b : List UInt8} (k : Nat) (hlen : b.length = k)
    (hdr : Option Header) :
    State.take_slices (.receivingData k) [b] hdr = .ok (.receivedData, k) := by
  by_cases hb : b = []
  · subst hb
    simp only [List.length_nil] at hlen
    subst hlen
    rw [State.take_slices, takeSlicesGo_skip_empty]
    simp [takeSlicesGo, @tu_rd_full [] 0 rfl]
  · rw [State.take_slices]
    simp only [takeSlicesGo, if_neg hb, tu_rd_full k hlen]
    simp [stopStates, takeSlicesGo]

theorem ts_al_full {b : List UInt8} (p : Nat) (hlen : b.length = p)
    (hdr : Option Header) :
    State.take_slices (.aligningData p) [b] hdr = .ok (.alignedData, p) := by
  by_cases hb : b = []
  · subst hb
    simp only [List.length_nil] at hlen
    subst hlen
    rw [State.take_slices, takeSlicesGo_skip_empty]
    simp [takeSlicesGo, @tu_al_full [] 0 rfl]
  · rw [State.take_slices]
    simp only [takeSlicesGo, if_neg hb, tu_al_full p hlen]
    simp [stopStates, takeSlicesGo]

theorem ts_rh_zeros (hdr : Option Header) :
    State.take_slices (.receivingHeader BLOCK_SIZE true)
      [List.replicate BLOCK_SIZE (0 : UInt8)] hdr =
      .ok (.receivingEof BLOCK_SIZE, BLOCK_SIZE) := by
  rw [State.take_slices]
  simp only [takeSlicesGo, if_neg (by simp [BLOCK_SIZE] :
    ¬List.replicate BLOCK_SIZE (0 : UInt8) = []), tu_rh_zeros]
  simp [stopStates, takeSlicesGo]

theorem ts_expecting_zeros (hdr : Option Header) :
    State.take_slices .expectingHeader
      [List.replicate BLOCK_SIZE (0 : UInt8)] hdr =
      .ok (.receivingEof BLOCK_SIZE, BLOCK_SIZE) := by
  rw [State.take_slices]
  simp only [takeSlicesGo, if_neg (by simp [BLOCK_SIZE] :
    ¬List.replicate BLOCK_SIZE (0 : UInt8) = []), tu_expecting_zeros]
  simp [stopStates, takeSlicesGo]

theorem ts_re_zeros (hdr : Option Header) :
    State.take_slices (.receivingEof BLOCK_SIZE)
      [List.replicate BLOCK_SIZE (0 : UInt8)] hdr =
      .ok (.receivedEof, BLOCK_SIZE) := by
  rw [State.take_slices]
  simp only [takeSlicesGo, if_neg (by simp [BLOCK_SIZE] :
    ¬List.replicate BLOCK_SIZE (0 : UInt8) = []), tu_re_zeros]
  simp [stopStates]

/-! ### The write datapath on a fully accepted slice -/

theorem take_append_pair (X b Y : List UInt8) :
    (X ++ b ++ Y).take (X.length + b.length) = X ++ b := by
  rw [List.append_assoc, List.take_append_eq_append_take,
    List.take_of_length_le (by omega), Nat.add_sub_cancel_left,
    List.take_append_eq_append_take, List.take_of_length_le (Nat.le_refl _),
    Nat.sub_self, List.take_zero, List.append_nil]

theorem fill_from_slices_pair {B : Buf} {b : List UInt8}
    (hroom : B.cap + b.length ≤ B.data.length) :
    (B.fill_from_slices [b, []]).1 = b.length ∧
    (B.fill_from_slices [b, []]).2.pos = B.pos ∧
    (B.fill_from_slices [b, []]).2.cap = B.cap + b.length ∧
    (B.fill_from_slices [b, []]).2.data =
      B.data.take B.cap ++ b ++ B.data.drop (B.cap + b.length) := by
  have hmin : min b.length (B.data.length - B.cap) = b.length := by omega
  unfold Buf.fill_from_slices
  simp only [List.foldl_cons, List.foldl_nil, Buf.fill, hmin]
  simp only [List.length_nil, Nat.zero_min, List.take_zero, List.nil_append,
    Nat.add_zero, Nat.zero_add, List.take_length]
  exact ⟨trivial, trivial, trivial, by rw [List.append_nil, List.take_append_drop]⟩

/-- The write datapath when the whole single-slice write is accepted by
the state machine and fits in the buffer: the bytes are appended to the
buffered region and the pre-validated state is adopted. -/
theorem poll_write_data_eval {w : WArchive} {b : List UInt8} {hdr : Option Header}
    {ns : State}
    (hts : w.state.take_slices [b] hdr = .ok (ns, b.length))
    (hroom : w.buf.cap + b.length ≤ w.buf.data.length)
    (hpos : w.buf.pos = 0) :
    ∃ w', poll_write_data w b hdr = .ok (b.length, w') ∧
      w'.state = ns ∧ w'.out = w.out ∧ w'.buf.pos = 0 ∧
      w'.buf.cap = w.buf.cap + b.length ∧
      w'.buf.data.length = w.buf.data.length ∧
      w'.buf.buffered_bytes = w.buf.buffered_bytes ++ b := by
  obtain ⟨h1, h2, h3, h4⟩ := fill_from_slices_pair hroom
  refine ⟨{ w with buf := (w.buf.fill_from_slices [b, []]).2, state := ns },
    ?_, rfl, rfl, ?_, ?_, ?_, ?_⟩
  · show poll_write_vectored w [b] b.length hdr = _
    unfold poll_write_vectored
    dsimp only
    rw [take_front_single, bytes_len_pair, take_slices_snoc, hts]
    dsimp only
    rw [if_pos rfl]
    simp only [ioIsWriteVectored, Bool.and_false, Bool.false_or,
      Bool.false_eq_true, if_false, decide_eq_true_eq]
    rw [if_neg (show ¬(w.buf.capacity - w.buf.cap < b.length) by
      unfold Buf.capacity; omega)]
    rw [h1, if_pos rfl]
  · rw [h2, hpos]
  · exact h3
  · rw [h4]
    simp only [List.length_append, List.length_take, List.length_drop]
    omega
  · show ((((w.buf.fill_from_slices [b, []]).2.data.take
        (w.buf.fill_from_slices [b, []]).2.cap).drop
        (w.buf.fill_from_slices [b, []]).2.pos) = _)
    rw [h2, h3, h4, hpos, List.drop_zero]
    unfold Buf.buffered_bytes
    rw [hpos, List.drop_zero]
    have hx : w.buf.cap + b.length = (w.buf.data.take w.buf.cap).length + b.length := by
      simp only [List.length_take]
      omega
    rw [hx, take_append_pair]

/-- The writer's between-entries invariant: ready for a header, with an
empty collapsed buffer of unchanged capacity. -/
def WReady (w : WArchive) (capW : Nat) : Prop :=
  w.state = .expectingHeader ∧ w.buf.pos = 0 ∧ w.buf.cap = 0 ∧
  w.buf.data.length = capW

theorem wready_buffered {w : WArchive} {capW : Nat} (hw : WReady w capW) :
    w.buf.buffered_bytes = [] := by
  obtain ⟨-, -, hcap, -⟩ := hw
  unfold Buf.buffered_bytes
  rw [hcap]
  simp

/-! One-step unfoldings of the fuelled writer loops (symbolic fuel, so
the equations unfold exactly one iteration). -/

theorem pwh_step_expecting {fuel : Nat} {w w' : WArchive} {hd : Header} {n : Nat}
    (hst : w.state = .expectingHeader)
    (hpd : poll_write_data w hd.as_bytes (some hd) = .ok (n, w'))
    (hn : ¬n = 0) :
    poll_write_header (fuel + 1) w hd = poll_write_header fuel w' hd := by
  simp only [poll_write_header]
  rw [hst]
  dsimp only
  rw [hpd]
  dsimp only
  rw [if_neg hn]

theorem pwh_step_received {fuel : Nat} {w : WArchive} {hd : Header} {s' : State}
    (hst : w.state = .receivedHeader)
    (htm : State.take_marker .receivedHeader (some hd) = .ok s') :
    poll_write_header (fuel + 1) w hd = some (.ok { w with state := s' }) := by
  simp only [poll_write_header]
  rw [hst]
  dsimp only
  rw [htm]

theorem pfe_step_received {fuel : Nat} {w : WArchive} {hd : Header} {s' : State}
    (hst : w.state = .receivedData)
    (htm : State.take_marker .receivedData (some hd) = .ok s') :
    poll_finish_entry (fuel + 1) w hd =
      poll_finish_entry fuel { w with state := s' } hd := by
  simp only [poll_finish_entry]
  rw [hst]
  dsimp only
  rw [htm]

theorem pfe_step_aligning {fuel : Nat} {w w' : WArchive} {hd : Header} {p n : Nat}
    (hst : w.state = .aligningData p)
    (hpd : poll_write_data w ((List.replicate BLOCK_SIZE (0 : UInt8)).take p)
      (some hd) = .ok (n, w')) :
    poll_finish_entry (fuel + 1) w hd = poll_finish_entry fuel w' hd := by
  simp only [poll_finish_entry]
  rw [hst]
  dsimp only
  rw [hpd]

theorem pfe_step_aligned {fuel : Nat} {w : WArchive} {hd : Header}
    (hst : w.state = .alignedData) :
    poll_finish_entry (fuel + 1) w hd =
      some (.ok { w with state := .expectingHeader }) := by
  simp only [poll_finish_entry]
  rw [hst]
  rfl

theorem pfe_step_done {fuel : Nat} {w : WArchive} {hd : Header}
    (hst : w.state = .expectingHeader) :
    poll_finish_entry (fuel + 1) w hd = some (.ok w) := by
  simp only [poll_finish_entry]
  rw [hst]

/-- One full entry through the writer: `add_entry`, a single complete
payload write, and the entry's shutdown emit exactly the entry's
canonical bytes and restore the between-entries invariant. -/
theorem writeEntryFull_eval {w : WArchive} {capW : Nat} {e : Header × List UInt8}
    (hw : WReady w capW) (hv : ValidEntry e)
    (hroom : BLOCK_SIZE + e.2.length + padLen e.2.length ≤ capW) :
    ∃ w', writeEntryFull w e = some (.ok w') ∧ WReady w' capW ∧
      w'.out = w.out ++ entryBytes e := by
  have hbuf0 := wready_buffered hw
  obtain ⟨hst, hpos, hcap, hdlen⟩ := hw
  obtain ⟨hlen, hnz, hsize, hah⟩ := hv
  -- Step 1: the 512 header bytes.
  have hts1 : w.state.take_slices [e.1.bytes] (some e.1) =
      .ok (.receivedHeader, e.1.bytes.length) := by
    rw [hst, hlen]
    exact ts_expecting_header hlen hnz _
  have hroom1 : w.buf.cap + e.1.bytes.length ≤ w.buf.data.length := by
    rw [hcap, hdlen, hlen]
    unfold BLOCK_SIZE at hroom ⊢
    omega
  obtain ⟨w1, hw1, hst1, hout1, hpos1, hcap1, hdlen1, hbuf1⟩ :=
    poll_write_data_eval hts1 hroom1 hpos
  have htm1 : State.take_marker .receivedHeader (some e.1) =
      .ok (.receivingData e.2.length) := by
    simp [State.take_marker, State.is_marker, State.next, Header.entry_size, hsize]
  have hpwh : poll_write_header 8 w e.1 =
      some (.ok { w1 with state := .receivingData e.2.length }) := by
    rw [show (8 : Nat) = 7 + 1 from rfl,
      pwh_step_expecting hst hw1
        (show ¬e.1.bytes.length = 0 by rw [hlen]; unfold BLOCK_SIZE; omega),
      show (7 : Nat) = 6 + 1 from rfl,
      pwh_step_received hst1 htm1]
  have hae : add_entry 8 w e.1 =
      some (.ok { w1 with state := .receivingData e.2.length }) := by
    unfold add_entry
    rw [hpwh]
    dsimp only
    rw [valid_cksum ⟨hlen, hnz, hsize, hah⟩]
    dsimp only
    rw [if_neg (calc_cksum_ne_zero e.1.bytes), hsize]
  -- Step 2: the payload.
  have hts2 : State.take_slices (.receivingData e.2.length) [e.2] (some e.1) =
      .ok (.receivedData, e.2.length) := ts_rd_full e.2.length rfl (some e.1)
  have hroom2 : w1.buf.cap + e.2.length ≤ w1.buf.data.length := by
    rw [hcap1, hdlen1, hcap, hdlen, hlen]
    unfold BLOCK_SIZE at hroom ⊢
    omega
  have hts2' : ({ w1 with state := State.receivingData e.2.length } :
      WArchive).state.take_slices [e.2] (some e.1) =
      .ok (.receivedData, e.2.length) := hts2
  obtain ⟨w3, hw3, hst3, hout3, hpos3, hcap3, hdlen3, hbuf3⟩ :=
    poll_write_data_eval hts2' hroom2 hpos1
  -- Step 3: the padding and the entry markers.
  have htm2 : State.take_marker .receivedData (some e.1) =
      .ok (.aligningData (padLen e.2.length)) := by
    simp [State.take_marker, State.is_marker, State.next, Header.entry_size,
      hsize, padLen]
  have htake : (List.replicate BLOCK_SIZE (0 : UInt8)).take (padLen e.2.length) =
      List.replicate (padLen e.2.length) (0 : UInt8) := by
    rw [List.take_replicate, Nat.min_eq_left (Nat.le_of_lt (padLen_lt _))]
  have hts3 : State.take_slices (.aligningData (padLen e.2.length))
      [List.replicate (padLen e.2.length) (0 : UInt8)] (some e.1) =
      .ok (.alignedData, (List.replicate (padLen e.2.length) (0 : UInt8)).length) := by
    rw [List.length_replicate]
    exact ts_al_full (padLen e.2.length) (List.length_replicate _ _) (some e.1)
  have hroom3 : w3.buf.cap + (List.replicate (padLen e.2.length) (0 : UInt8)).length ≤
      w3.buf.data.length := by
    rw [List.length_replicate, hcap3, hdlen3, hcap1, hdlen1, hcap, hdlen, hlen]
    unfold BLOCK_SIZE at hroom ⊢
    omega
  have hts3' : ({ w3 with state := State.aligningData (padLen e.2.length) } :
      WArchive).state.take_slices [List.replicate (padLen e.2.length) (0 : UInt8)]
      (some e.1) =
      .ok (.alignedData, (List.replicate (padLen e.2.length) (0 : UInt8)).length) :=
    hts3
  obtain ⟨w5, hw5, hst5, hout5, hpos5, hcap5, hdlen5, hbuf5⟩ :=
    poll_write_data_eval hts3' hroom3 hpos3
  have hpfe : poll_finish_entry 8 w3 e.1 =
      some (.ok { w5 with state := .expectingHeader }) := by
    rw [show (8 : Nat) = 7 + 1 from rfl, pfe_step_received hst3 htm2,
      show (7 : Nat) = 6 + 1 from rfl,
      pfe_step_aligning rfl (by rw [htake]; exact hw5),
      show (6 : Nat) = 5 + 1 from rfl, pfe_step_aligned hst5]
  have hpe : poll_write_entry 8 { w1 with state := .receivingData e.2.length }
      [e.2] e.1 = some (.ok (e.2.length, { w5 with state := .expectingHeader })) := by
    unfold poll_write_entry
    dsimp only
    rw [show poll_write_vectored { w1 with state := .receivingData e.2.length }
      [e.2] e.2.length (some e.1) =
      poll_write_data { w1 with state := .receivingData e.2.length } e.2 (some e.1)
      from rfl]
    rw [hw3]
    dsimp only
    rw [if_pos rfl, hpfe]
  have heps : entry_poll_shutdown 8 { w5 with state := .expectingHeader } e.1 =
      some (.ok (poll_flush_buffered { w5 with state := .expectingHeader })) := by
    unfold entry_poll_shutdown
    rw [show (8 : Nat) = 7 + 1 from rfl, pfe_step_done rfl]
  refine ⟨poll_flush_buffered { w5 with state := .expectingHeader }, ?_, ?_, ?_⟩
  · unfold writeEntryFull
    rw [hae]
    dsimp only
    rw [hpe]
    dsimp only
    rw [heps]
  · exact ⟨rfl, rfl, rfl, by
      show w5.buf.data.length = capW
      rw [hdlen5, hdlen3, hdlen1, hdlen]⟩
  · show w5.out ++ ({ w5 with state := State.expectingHeader } : WArchive).buf.buffered_bytes =
      w.out ++ entryBytes e
    rw [hout5, hout3, hout1]
    show w.out ++ w5.buf.buffered_bytes = w.out ++ entryBytes e
    rw [hbuf5, hbuf3, hbuf1, hbuf0]
    unfold entryBytes
    simp

theorem writeEntries_eval {capW : Nat} :
    ∀ (es : List (Header × List UInt8)) (w : WArchive),
      WReady w capW → (∀ e ∈ es, ValidEntry e) →
      (∀ e ∈ es, BLOCK_SIZE + e.2.length + padLen e.2.length ≤ capW) →
      ∃ w', writeEntries es w = some (.ok w') ∧ WReady w' capW ∧
        w'.out = w.out ++ (es.map entryBytes).flatten := by
  intro es
  induction es with
  | nil =>
    intro w hw _ _
    exact ⟨w, rfl, hw, by simp⟩
  | cons e es ih =>
    intro w hw hv hroom
    obtain ⟨w1, h1, hw1, hout1⟩ := writeEntryFull_eval hw (hv e (by simp))
      (hroom e (by simp))
    obtain ⟨w2, h2, hw2, hout2⟩ := ih w1 hw1 (fun x hx => hv x (by simp [hx]))
      (fun x hx => hroom x (by simp [hx]))
    refine ⟨w2, ?_, hw2, ?_⟩
    · simp only [writeEntries]
      rw [h1]
      dsimp only
      exact h2
    · rw [hout2, hout1]
      simp

theorem pf_step_expecting {fuel : Nat} {w w' : WArchive} {n : Nat}
    (hst : w.state = .expectingHeader)
    (hpd : poll_write_data w (List.replicate BLOCK_SIZE (0 : UInt8)) none =
      .ok (n, w')) :
    poll_finish (fuel + 1) w = poll_finish fuel w' := by
  simp only [poll_finish]
  rw [hst]
  dsimp only
  rw [hpd]

theorem pf_step_reof {fuel : Nat} {w w' : WArchive} {rem n : Nat}
    (hst : w.state = .receivingEof rem)
    (hpd : poll_write_data w ((List.replicate BLOCK_SIZE (0 : UInt8)).take rem)
      none = .ok (n, w')) :
    poll_finish (fuel + 1) w = poll_finish fuel w' := by
  simp only [poll_finish]
  rw [hst]
  dsimp only
  rw [hpd]

theorem pf_step_eof {fuel : Nat} {w : WArchive} (hst : w.state = .receivedEof) :
    poll_finish (fuel + 1) w = some (.ok (poll_flush_buffered w)) := by
  simp only [poll_finish]
  rw [hst]

/-- `poll_finish` from the between-entries invariant: the two trailing
zero blocks are written and flushed. -/
theorem poll_finish_eval {w : WArchive} {capW : Nat} (hw : WReady w capW)
    (hcap : 2 * BLOCK_SIZE ≤ capW) :
    ∃ w', poll_finish 8 w = some (.ok w') ∧
      w'.out = w.out ++ List.replicate (2 * BLOCK_SIZE) (0 : UInt8) := by
  have hbuf0 := wready_buffered hw
  obtain ⟨hst, hpos, hcap0, hdlen⟩ := hw
  have hts1 : w.state.take_slices [List.replicate BLOCK_SIZE (0 : UInt8)] none =
      .ok (.receivingEof BLOCK_SIZE,
        (List.replicate BLOCK_SIZE (0 : UInt8)).length) := by
    rw [hst, List.length_replicate]
    exact ts_expecting_zeros none
  have hroom1 : w.buf.cap + (List.replicate BLOCK_SIZE (0 : UInt8)).length ≤
      w.buf.data.length := by
    rw [List.length_replicate, hcap0, hdlen]
    omega
  obtain ⟨w1, hw1, hst1, hout1, hpos1, hcap1, hdlen1, hbuf1⟩ :=
    poll_write_data_eval hts1 hroom1 hpos
  have hts2 : w1.state.take_slices [List.replicate BLOCK_SIZE (0 : UInt8)] none =
      .ok (.receivedEof, (List.replicate BLOCK_SIZE (0 : UInt8)).length) := by
    rw [hst1, List.length_replicate]
    exact ts_re_zeros none
  have hroom2 : w1.buf.cap + (List.replicate BLOCK_SIZE (0 : UInt8)).length ≤
      w1.buf.data.length := by
    rw [List.length_replicate, hcap1, hdlen1, hcap0, hdlen, List.length_replicate]
    omega
  obtain ⟨w2, hw2, hst2, hout2, hpos2, hcap2, hdlen2, hbuf2⟩ :=
    poll_write_data_eval hts2 hroom2 hpos1
  refine ⟨poll_flush_buffered w2, ?_, ?_⟩
  · rw [show (8 : Nat) = 7 + 1 from rfl, pf_step_expecting hst hw1,
      show (7 : Nat) = 6 + 1 from rfl,
      pf_step_reof hst1 (by
        rw [show (List.replicate BLOCK_SIZE (0 : UInt8)).take BLOCK_SIZE =
          List.replicate BLOCK_SIZE (0 : UInt8) from by
            rw [List.take_replicate, Nat.min_self]]
        exact hw2),
      show (6 : Nat) = 5 + 1 from rfl, pf_step_eof hst2]
  · show w2.out ++ w2.buf.buffered_bytes = w.out ++ _
    rw [hout2, hout1, hbuf2, hbuf1, hbuf0, List.nil_append, ← List.replicate_add]
    rfl

/-- `writeArchive` produces exactly the canonical stream. -/
theorem writeArchive_eval {entries : List (Header × List UInt8)} {capW : Nat}
    (hv : ∀ e ∈ entries, ValidEntry e)
    (hroom : ∀ e ∈ entries, BLOCK_SIZE + e.2.length + padLen e.2.length ≤ capW)
    (hcap : 2 * BLOCK_SIZE ≤ capW) :
    writeArchive capW entries = some (.ok (streamOf entries)) := by
  have hw0 : WReady ⟨Buf.new capW, .expectingHeader, []⟩ capW :=
    ⟨rfl, rfl, rfl, by simp [Buf.new]⟩
  obtain ⟨w1, h1, hw1, hout1⟩ := writeEntries_eval entries _ hw0 hv hroom
  obtain ⟨w2, h2, hout2⟩ := poll_finish_eval hw1 hcap
  unfold writeArchive
  rw [h1]
  dsimp only
  rw [h2]
  dsimp only
  rw [hout2, hout1]
  unfold streamOf
  simp

/-! ### The read driver along the canonical stream -/

/-- The chaining step of `consume` as a function of the machine state:
across the marker/zero-counter states of the source's chain list, one
more `next` with an empty buffer; identity otherwise. -/
def consumeChain (s1 : State) (hdr : Option Header) : Option State :=
  match s1 with
  | .receivingHeader 0 false | .receivedHeader | .receivingData 0
  | .receivedData | .aligningData 0 | .alignedData | .receivingEof 0 =>
    match s1.next [] hdr with
    | .error _ => none
    | .ok (s2, _) => some s2
  | _ => some s1

theorem consume_commit_buffered (a : RArchive) (amt : Nat) :
    (if (a.buf.commitRead amt).buffered_bytes = [] then (a.buf.commitRead amt).clear
      else a.buf.commitRead amt).buffered_bytes =
      a.buf.buffered_bytes.drop amt := by
  have hc := buffered_commitRead a.buf amt
  split
  · rename_i h
    rw [← hc, h]
    simp [Buf.clear, Buf.buffered_bytes]
  · exact hc

/-- `consume` when the validated prefix is accepted in full: the state
becomes the (possibly chained) machine state and the buffered region
advances by `amt`. -/
theorem consume_eval {a : RArchive} {amt : Nat} {hdr : Option Header}
    {s1 s2 : State}
    (hle : amt ≤ a.buf.buffered_bytes.length)
    (hts : a.state.take_slices [a.buf.buffered_bytes.take amt] hdr = .ok (s1, amt))
    (hch : consumeChain s1 hdr = some s2) :
    ∃ a', consume a amt hdr = some a' ∧ a'.state = s2 ∧ a'.src = a.src ∧
      a'.buf.buffered_bytes = a.buf.buffered_bytes.drop amt := by
  unfold consume
  rw [if_pos hle, hts]
  dsimp only
  revert hch
  unfold consumeChain
  cases s1 with
  | receivedHeader =>
    intro hch
    cases hnx : State.next .receivedHeader [] hdr with
    | error e =>
      rw [hnx] at hch
      simp at hch
    | ok p =>
      obtain ⟨t, k⟩ := p
      try rw [hnx] at hch
      try rw [hnx]
      injection hch with hch
      subst hch
      exact ⟨_, if_pos rfl, rfl, rfl, consume_commit_buffered a amt⟩
  | receivedData =>
    intro hch
    cases hnx : State.next .receivedData [] hdr with
    | error e =>
      rw [hnx] at hch
      simp at hch
    | ok p =>
      obtain ⟨t, k⟩ := p
      try rw [hnx] at hch
      try rw [hnx]
      injection hch with hch
      subst hch
      exact ⟨_, if_pos rfl, rfl, rfl, consume_commit_buffered a amt⟩
  | receivingHeader rem b =>
    rcases rem with - | rem <;> cases b <;> intro hch <;>
      (injection hch with hch
       subst hch
       exact ⟨_, if_pos rfl, rfl, rfl, consume_commit_buffered a amt⟩)
  | receivingData rem =>
    rcases rem with - | rem <;> intro hch <;>
      (injection hch with hch
       subst hch
       exact ⟨_, if_pos rfl, rfl, rfl, consume_commit_buffered a amt⟩)
  | aligningData rem =>
    rcases rem with - | rem <;> intro hch <;>
      (injection hch with hch
       subst hch
       exact ⟨_, if_pos rfl, rfl, rfl, consume_commit_buffered a amt⟩)
  | receivingEof rem =>
    rcases rem with - | rem <;> intro hch <;>
      (injection hch with hch
       subst hch
       exact ⟨_, if_pos rfl, rfl, rfl, consume_commit_buffered a amt⟩)
  | expectingHeader =>
    intro hch
    injection hch with hch
    subst hch
    exact ⟨_, if_pos rfl, rfl, rfl, consume_commit_buffered a amt⟩
  | alignedData =>
    intro hch
    injection hch with hch
    subst hch
    exact ⟨_, if_pos rfl, rfl, rfl, consume_commit_buffered a amt⟩
  | receivedEof =>
    intro hch
    injection hch with hch
    subst hch
    exact ⟨_, if_pos rfl, rfl, rfl, consume_commit_buffered a amt⟩

theorem poll_next_state_eval {a a1 : RArchive} {hdr : Option Header} {s : State}
    {amt : Nat}
    (hfill : fillBuf a = .ok a1)
    (hnx : a1.state.next a1.buf.buffered_bytes hdr = .ok (s, amt)) :
    poll_next_state a hdr = .ok (a1, s, amt) := by
  unfold poll_next_state
  rw [hfill]
  dsimp only
  rw [hnx]

/-- One dispatch iteration from `AligningData(0)`: finish off the
previous entry's alignment marker. -/
theorem pnel_step_align {fuel : Nat} {a a1 : RArchive}
    (hfill : fillBuf a = .ok a1) (hst : a1.state = .aligningData 0) :
    ∃ a2, pollNextEntryLoop (fuel + 1) a = pollNextEntryLoop fuel a2 ∧
      a2.state = .expectingHeader ∧ a2.src = a1.src ∧
      a2.buf.buffered_bytes = a1.buf.buffered_bytes := by
  have hnx : a1.state.next a1.buf.buffered_bytes none = .ok (.alignedData, 0) := by
    rw [hst, next_al_eq]
    simp
  have hts : a1.state.take_slices [a1.buf.buffered_bytes.take 0] none =
      .ok (.alignedData, 0) := by
    rw [hst]
    exact @ts_al_full [] 0 rfl none
  obtain ⟨a2, hcons, hst2, hsrc2, hbuf2⟩ := consume_eval (Nat.zero_le _) hts
    (show consumeChain .alignedData none = some .expectingHeader from rfl)
  refine ⟨a2, ?_, hst2, hsrc2, by rw [hbuf2, List.drop_zero]⟩
  simp only [pollNextEntryLoop]
  rw [poll_next_state_eval hfill hnx]
  dsimp only
  rw [hcons]

/-- One dispatch iteration from `ExpectingHeader`: the zero-byte marker
into `ReceivingHeader(512, true)`. -/
theorem pnel_step_expecting {fuel : Nat} {a a1 : RArchive}
    (hfill : fillBuf a = .ok a1) (hst : a1.state = .expectingHeader) :
    ∃ a2, pollNextEntryLoop (fuel + 1) a = pollNextEntryLoop fuel a2 ∧
      a2.state = .receivingHeader BLOCK_SIZE true ∧ a2.src = a1.src ∧
      a2.buf.buffered_bytes = a1.buf.buffered_bytes := by
  have hnx : a1.state.next a1.buf.buffered_bytes none =
      .ok (.receivingHeader BLOCK_SIZE true, 0) := by
    rw [hst]
    rfl
  have hts : a1.state.take_slices [a1.buf.buffered_bytes.take 0] none =
      .ok (.receivingHeader BLOCK_SIZE true, 0) := by
    rw [hst]
    exact ts_expecting_nil none
  obtain ⟨a2, hcons, hst2, hsrc2, hbuf2⟩ := consume_eval (Nat.zero_le _) hts
    (show consumeChain (.receivingHeader BLOCK_SIZE true) none =
      some (.receivingHeader BLOCK_SIZE true) from rfl)
  refine ⟨a2, ?_, hst2, hsrc2, by rw [hbuf2, List.drop_zero]⟩
  simp only [pollNextEntryLoop]
  rw [poll_next_state_eval hfill hnx]
  dsimp only
  rw [hcons]

/-- The dispatch iteration that reads an entry header: parse the block,
consume it, and hand the entry to the caller. -/
theorem pnel_recv_header {fuel : Nat} {a a1 : RArchive} {e : Header × List UInt8}
    {T : List UInt8}
    (hv : ValidEntry e)
    (hfill : fillBuf a = .ok a1)
    (hst : a1.state = .receivingHeader BLOCK_SIZE true)
    (hbuf : a1.buf.buffered_bytes = e.1.bytes ++ T) :
    ∃ a2, pollNextEntryLoop (fuel + 1) a = some (.ok (a2, some e.1)) ∧
      a2.state = .receivingData e.2.length ∧ a2.src = a1.src ∧
      a2.buf.buffered_bytes = T := by
  obtain ⟨hlen, hnz, hsize, hah⟩ := hv
  have htake : a1.buf.buffered_bytes.take BLOCK_SIZE = e.1.bytes := by
    rw [hbuf, ← hlen, List.take_left]
  have hnx : a1.state.next a1.buf.buffered_bytes none =
      .ok (.receivedHeader, BLOCK_SIZE) := by
    rw [hst, next_rh_eq]
    have hm : min BLOCK_SIZE a1.buf.buffered_bytes.length = BLOCK_SIZE := by
      rw [hbuf, List.length_append, ← hlen]
      omega
    rw [hm, htake, hnz]
    simp
  have hts : a1.state.take_slices [a1.buf.buffered_bytes.take BLOCK_SIZE]
      (some e.1) = .ok (.receivedHeader, BLOCK_SIZE) := by
    rw [htake, hst]
    exact ts_rh_header hlen hnz _
  have hch : consumeChain .receivedHeader (some e.1) =
      some (.receivingData e.2.length) := by
    simp [consumeChain, State.next, Header.entry_size, hsize]
  have hle : BLOCK_SIZE ≤ a1.buf.buffered_bytes.length := by
    rw [hbuf, List.length_append, ← hlen]
    omega
  obtain ⟨a2, hcons, hst2, hsrc2, hbuf2⟩ := consume_eval hle hts hch
  refine ⟨a2, ?_, hst2, hsrc2, by rw [hbuf2, hbuf, ← hlen, List.drop_left]⟩
  simp only [pollNextEntryLoop]
  rw [poll_next_state_eval hfill hnx]
  dsimp only
  rw [htake, hah]
  dsimp only
  rw [hcons]
  dsimp only
  rw [valid_cksum ⟨hlen, hnz, hsize, hah⟩]
  dsimp only
  rw [if_neg (calc_cksum_ne_zero e.1.bytes), hsize]

/-- `poll_read_entry` hands the caller `amt` buffered payload bytes when
the machine reports `ReceivedData`. -/
theorem pre_data (fuel : Nat) (hd : Header) {a a1 : RArchive} {k : Nat}
    (hfill : fillBuf a = .ok a1)
    (hst : a1.state = .receivingData k)
    (hk : k ≤ a1.buf.buffered_bytes.length) :
    poll_read_entry (fuel + 1) a hd =
      some (.ok (a1, a1.buf.buffered_bytes.take k)) := by
  have hnx : a1.state.next a1.buf.buffered_bytes (some hd) =
      .ok (.receivedData, k) := by
    rw [hst, next_rd_eq, Nat.min_eq_left hk, Nat.sub_self]
    simp
  simp only [poll_read_entry]
  rw [poll_next_state_eval hfill hnx]

/-- `poll_read_entry` across the alignment padding: consume it and hand
the caller the empty batch that ends the entry. -/
theorem pre_aligned (fuel : Nat) (hd : Header) {a a1 : RArchive} {p : Nat}
    {X : List UInt8}
    (hfill : fillBuf a = .ok a1)
    (hst : a1.state = .aligningData p)
    (hbuf : a1.buf.buffered_bytes = List.replicate p (0 : UInt8) ++ X) :
    ∃ a2, poll_read_entry (fuel + 1) a hd = some (.ok (a2, [])) ∧
      a2.state = .expectingHeader ∧ a2.src = a1.src ∧
      a2.buf.buffered_bytes = X := by
  have hp : p ≤ a1.buf.buffered_bytes.length := by
    rw [hbuf, List.length_append, List.length_replicate]
    omega
  have hnx : a1.state.next a1.buf.buffered_bytes (some hd) =
      .ok (.alignedData, p) := by
    rw [hst, next_al_eq, Nat.min_eq_left hp, Nat.sub_self]
    simp
  have htake : a1.buf.buffered_bytes.take p = List.replicate p (0 : UInt8) := by
    rw [hbuf]
    exact List.take_left' (List.length_replicate _ _)
  have hts : a1.state.take_slices [a1.buf.buffered_bytes.take p] (some hd) =
      .ok (.alignedData, p) := by
    rw [htake, hst]
    exact ts_al_full p (List.length_replicate _ _) _
  obtain ⟨a2, hcons, hst2, hsrc2, hbuf2⟩ := consume_eval hp hts
    (show consumeChain .alignedData (some hd) = some .expectingHeader from rfl)
  refine ⟨a2, ?_, hst2, hsrc2, by
    rw [hbuf2, hbuf]
    exact List.drop_left' (List.length_replicate _ _)⟩
  simp only [poll_read_entry]
  rw [poll_next_state_eval hfill hnx]
  dsimp only
  rw [hcons]

/-- One iteration of the caller's entry read loop. -/
theorem red_step {fuel : Nat} {a a1 a2 : RArchive} {hd : Header}
    {bytes acc : List UInt8}
    (hpre : poll_read_entry 8 a hd = some (.ok (a1, bytes)))
    (hcons : consume a1 bytes.length (some hd) = some a2) :
    read_entry_data (fuel + 1) a hd acc =
      if bytes = [] then some (.ok (a2, acc))
      else read_entry_data fuel a2 hd (acc ++ bytes) := by
  simp only [read_entry_data]
  rw [hpre]
  dsimp only
  rw [hcons]

/-- The caller's read loop over one entry returns exactly the payload
and leaves the machine at the entry boundary. -/
theorem read_entry_data_eval {a : RArchive} {e : Header × List UInt8}
    {R : List UInt8}
    (hv : ValidEntry e) (hst : a.state = .receivingData e.2.length)
    (hbuf : a.buf.buffered_bytes =
      e.2 ++ List.replicate (padLen e.2.length) (0 : UInt8) ++ R)
    (hR : R ≠ []) (acc : List UInt8) :
    ∃ a2, read_entry_data 8 a e.1 acc = some (.ok (a2, acc ++ e.2)) ∧
      a2.src = a.src ∧ a2.buf.buffered_bytes = R ∧
      (a2.state = .receivingHeader BLOCK_SIZE true ∨
        a2.state = .aligningData 0) := by
  obtain ⟨hlen, hnz, hsize, hah⟩ := hv
  rw [List.append_assoc] at hbuf
  have hne : a.buf.buffered_bytes ≠ [] := by
    rw [hbuf]
    intro hcon
    obtain ⟨-, hcon2⟩ := List.append_eq_nil.mp hcon
    obtain ⟨-, hcon3⟩ := List.append_eq_nil.mp hcon2
    exact hR hcon3
  have hfill : fillBuf a = .ok a := fillBuf_nonempty hne
  have hkle : e.2.length ≤ a.buf.buffered_bytes.length := by
    rw [hbuf, List.length_append]
    omega
  by_cases hk : e.2.length = 0
  · -- empty payload: one round, ending at `AligningData(0)`
    have he2 : e.2 = [] := List.eq_nil_of_length_eq_zero hk
    have hpre : poll_read_entry 8 a e.1 =
        some (.ok (a, a.buf.buffered_bytes.take e.2.length)) := by
      rw [show (8 : Nat) = 7 + 1 from rfl]
      exact pre_data 7 e.1 hfill hst hkle
    rw [hk, List.take_zero] at hpre
    have hts : a.state.take_slices [a.buf.buffered_bytes.take 0] (some e.1) =
        .ok (.receivedData, 0) := by
      rw [hst, hk]
      exact @ts_rd_full [] 0 rfl (some e.1)
    have hch : consumeChain .receivedData (some e.1) =
        some (.aligningData 0) := by
      simp [consumeChain, State.next, Header.entry_size, hsize, hk]
      try rfl
    obtain ⟨a2, hcons, hst2, hsrc2, hbuf2⟩ :=
      consume_eval (Nat.zero_le _) hts hch
    refine ⟨a2, ?_, hsrc2, ?_, Or.inr hst2⟩
    · rw [show (8 : Nat) = 7 + 1 from rfl, red_step hpre hcons, if_pos rfl,
        he2, List.append_nil]
    · rw [hbuf2, List.drop_zero, hbuf, he2]
      simp [padLen, nextMultipleOf, BLOCK_SIZE]
  · -- non-empty payload: payload round, padding round, final empty batch
    have htake1 : a.buf.buffered_bytes.take e.2.length = e.2 := by
      rw [hbuf]
      exact List.take_left' rfl
    have hpre1 : poll_read_entry 8 a e.1 = some (.ok (a, e.2)) := by
      rw [show (8 : Nat) = 7 + 1 from rfl, pre_data 7 e.1 hfill hst hkle, htake1]
    have hts1 : a.state.take_slices [a.buf.buffered_bytes.take e.2.length]
        (some e.1) = .ok (.receivedData, e.2.length) := by
      rw [htake1, hst]
      exact ts_rd_full e.2.length rfl (some e.1)
    have hch1 : consumeChain .receivedData (some e.1) =
        some (.aligningData (padLen e.2.length)) := by
      simp [consumeChain, State.next, Header.entry_size, hsize, padLen]
    obtain ⟨a2, hcons1, hst2, hsrc2, hbuf2⟩ := consume_eval hkle hts1 hch1
    have hbuf2' : a2.buf.buffered_bytes =
        List.replicate (padLen e.2.length) (0 : UInt8) ++ R := by
      rw [hbuf2, hbuf]
      exact List.drop_left' rfl
    have hne2 : a2.buf.buffered_bytes ≠ [] := by
      rw [hbuf2']
      intro hcon
      obtain ⟨-, hcon2⟩ := List.append_eq_nil.mp hcon
      exact hR hcon2
    have hfill2 : fillBuf a2 = .ok a2 := fillBuf_nonempty hne2
    obtain ⟨a3, hpre2, hst3, hsrc3, hbuf3⟩ :=
      pre_aligned 7 e.1 hfill2 hst2 hbuf2'
    have hts3 : a3.state.take_slices [a3.buf.buffered_bytes.take 0]
        (some e.1) = .ok (.receivingHeader BLOCK_SIZE true, 0) := by
      rw [hst3]
      exact ts_expecting_nil (some e.1)
    obtain ⟨a4, hcons3, hst4, hsrc4, hbuf4⟩ :=
      consume_eval (Nat.zero_le _) hts3
        (show consumeChain (.receivingHeader BLOCK_SIZE true) (some e.1) =
          some (.receivingHeader BLOCK_SIZE true) from rfl)
    have hpre2' : poll_read_entry 8 a2 e.1 = some (.ok (a3, [])) := hpre2
    refine ⟨a4, ?_, ?_, ?_, Or.inl hst4⟩
    · rw [show (8 : Nat) = 7 + 1 from rfl, red_step hpre1 hcons1,
        if_neg (fun hcon => hk (by rw [hcon]; rfl)),
        show (7 : Nat) = 6 + 1 from rfl, red_step hpre2' hcons3, if_pos rfl]
    · rw [hsrc4, hsrc3, hsrc2]
    · rw [hbuf4, List.drop_zero, hbuf3]

theorem pnel_step_reof {fuel : Nat} {a a1 a2 : RArchive} {rem amt : Nat}
    (hps : poll_next_state a none = .ok (a1, .receivingEof rem, amt))
    (hcons : consume a1 amt none = some a2) :
    pollNextEntryLoop (fuel + 1) a = pollNextEntryLoop fuel a2 := by
  simp only [pollNextEntryLoop]
  rw [hps]
  dsimp only
  rw [hcons]

theorem pnel_step_eof_arm {fuel : Nat} {a a1 a2 : RArchive} {amt : Nat}
    (hps : poll_next_state a none = .ok (a1, .receivedEof, amt))
    (hcons : consume a1 amt none = some a2) :
    pollNextEntryLoop (fuel + 1) a = some (.ok (a2, none)) := by
  simp only [pollNextEntryLoop]
  rw [hps]
  dsimp only
  rw [hcons]

/-- The two trailing zero blocks, read from `ReceivingHeader(512, true)`:
the loop walks through `ReceivingEof` to `ReceivedEof` and reports
absence. -/
theorem pnel_eof_rh (fuel : Nat) {a a1 : RArchive}
    (hfill : fillBuf a = .ok a1)
    (hst : a1.state = .receivingHeader BLOCK_SIZE true)
    (hbuf : a1.buf.buffered_bytes = List.replicate (2 * BLOCK_SIZE) (0 : UInt8)) :
    ∃ a2, pollNextEntryLoop (fuel + 1 + 1) a = some (.ok (a2, none)) := by
  have hnx1 : a1.state.next a1.buf.buffered_bytes none =
      .ok (.receivingEof BLOCK_SIZE, BLOCK_SIZE) := by
    rw [hst, hbuf]
    rfl
  have hts1 : a1.state.take_slices [a1.buf.buffered_bytes.take BLOCK_SIZE] none =
      .ok (.receivingEof BLOCK_SIZE, BLOCK_SIZE) := by
    rw [hst, hbuf,
      show (List.replicate (2 * BLOCK_SIZE) (0 : UInt8)).take BLOCK_SIZE =
        List.replicate BLOCK_SIZE (0 : UInt8) from rfl]
    exact ts_rh_zeros none
  have hle1 : BLOCK_SIZE ≤ a1.buf.buffered_bytes.length := by
    rw [hbuf, List.length_replicate]
    unfold BLOCK_SIZE
    omega
  obtain ⟨a2, hcons1, hst2, hsrc2, hbuf2⟩ := consume_eval hle1 hts1
    (show consumeChain (.receivingEof BLOCK_SIZE) none =
      some (.receivingEof BLOCK_SIZE) from rfl)
  have hbuf2' : a2.buf.buffered_bytes = List.replicate BLOCK_SIZE (0 : UInt8) := by
    rw [hbuf2, hbuf]
    rfl
  have hfill2 : fillBuf a2 = .ok a2 := fillBuf_nonempty (by
    rw [hbuf2']
    simp [BLOCK_SIZE])
  have hnx2 : a2.state.next a2.buf.buffered_bytes none =
      .ok (.receivedEof, BLOCK_SIZE) := by
    rw [hst2, hbuf2']
    rfl
  have hts2 : a2.state.take_slices [a2.buf.buffered_bytes.take BLOCK_SIZE] none =
      .ok (.receivedEof, BLOCK_SIZE) := by
    rw [hst2, hbuf2',
      show (List.replicate BLOCK_SIZE (0 : UInt8)).take BLOCK_SIZE =
        List.replicate BLOCK_SIZE (0 : UInt8) from rfl]
    exact ts_re_zeros none
  have hle2 : BLOCK_SIZE ≤ a2.buf.buffered_bytes.length := by
    rw [hbuf2', List.length_replicate]
  obtain ⟨a3, hcons2, -, -, -⟩ := consume_eval hle2 hts2
    (show consumeChain .receivedEof none = some .receivedEof from rfl)
  refine ⟨a3, ?_⟩
  rw [pnel_step_reof (poll_next_state_eval hfill hnx1) hcons1,
    pnel_step_eof_arm (poll_next_state_eval hfill2 hnx2) hcons2]

/-- `poll_next_entry` at an entry boundary with a next entry on the
stream: the entry's header is handed out and its header block
consumed. -/
theorem poll_next_entry_entry {a a1 : RArchive} {e : Header × List UInt8}
    {R : List UInt8}
    (hv : ValidEntry e)
    (hfill : fillBuf a = .ok a1)
    (hsts : a.state = .expectingHeader ∨ a.state = .aligningData 0 ∨
      a.state = .receivingHeader BLOCK_SIZE true)
    (hbuf : a1.buf.buffered_bytes = entryBytes e ++ R) :
    ∃ a2, poll_next_entry 8 a = some (.ok (a2, some e.1)) ∧
      a2.state = .receivingData e.2.length ∧ a2.src = a1.src ∧
      a2.buf.buffered_bytes =
        e.2 ++ List.replicate (padLen e.2.length) (0 : UInt8) ++ R := by
  have hterm : a.state.is_terminal = false := by
    rcases hsts with h | h | h <;> rw [h] <;> rfl
  have hne1 : a1.buf.buffered_bytes ≠ [] := by
    rw [hbuf]
    intro hcon
    obtain ⟨h1, -⟩ := List.append_eq_nil.mp hcon
    unfold entryBytes at h1
    obtain ⟨h2, -⟩ := List.append_eq_nil.mp h1
    obtain ⟨h3, -⟩ := List.append_eq_nil.mp h2
    have := hv.1
    rw [h3] at this
    simp [BLOCK_SIZE] at this
  have hbufT : a1.buf.buffered_bytes =
      e.1.bytes ++ (e.2 ++ (List.replicate (padLen e.2.length) (0 : UInt8) ++ R)) := by
    rw [hbuf]
    unfold entryBytes
    simp [List.append_assoc]
  have hopen : poll_next_entry 8 a = pollNextEntryLoop 8 a := by
    unfold poll_next_entry
    rw [hterm]
    rfl
  rcases hsts with h | h | h
  · -- ExpectingHeader: one marker step, then the header iteration
    obtain ⟨a2, hstep, hst2, hsrc2, hbuf2⟩ := pnel_step_expecting hfill
      (by rw [fillBuf_state hfill]; exact h)
    have hfill2 : fillBuf a2 = .ok a2 := fillBuf_nonempty (by rw [hbuf2]; exact hne1)
    obtain ⟨a3, hdr3, hst3, hsrc3, hbuf3⟩ := pnel_recv_header hv hfill2 hst2
      (by rw [hbuf2]; exact hbufT)
    refine ⟨a3, ?_, hst3, by rw [hsrc3, hsrc2], by rw [hbuf3, List.append_assoc]⟩
    rw [hopen, show (8 : Nat) = 7 + 1 from rfl, hstep,
      show (7 : Nat) = 6 + 1 from rfl, hdr3]
  · -- AligningData(0): two marker steps, then the header iteration
    obtain ⟨a2, hstep, hst2, hsrc2, hbuf2⟩ := pnel_step_align hfill
      (by rw [fillBuf_state hfill]; exact h)
    have hfill2 : fillBuf a2 = .ok a2 := fillBuf_nonempty (by rw [hbuf2]; exact hne1)
    obtain ⟨a3, hstep3, hst3, hsrc3, hbuf3⟩ := pnel_step_expecting hfill2 hst2
    have hfill3 : fillBuf a3 = .ok a3 := fillBuf_nonempty (by
      rw [hbuf3, hbuf2]
      exact hne1)
    obtain ⟨a4, hdr4, hst4, hsrc4, hbuf4⟩ := pnel_recv_header hv hfill3 hst3
      (by rw [hbuf3, hbuf2]; exact hbufT)
    refine ⟨a4, ?_, hst4, by rw [hsrc4, hsrc3, hsrc2],
      by rw [hbuf4, List.append_assoc]⟩
    rw [hopen, show (8 : Nat) = 7 + 1 from rfl, hstep,
      show (7 : Nat) = 6 + 1 from rfl, hstep3,
      show (6 : Nat) = 5 + 1 from rfl, hdr4]
  · -- Already at ReceivingHeader(512, true)
    obtain ⟨a2, hdr2, hst2, hsrc2, hbuf2⟩ := pnel_recv_header hv hfill
      (by rw [fillBuf_state hfill]; exact h) hbufT
    refine ⟨a2, ?_, hst2, hsrc2, by rw [hbuf2, List.append_assoc]⟩
    rw [hopen, show (8 : Nat) = 7 + 1 from rfl, hdr2]

/-- `poll_next_entry` at an entry boundary with only the two trailing
zero blocks left: absence is reported. -/
theorem poll_next_entry_eof {a a1 : RArchive}
    (hfill : fillBuf a = .ok a1)
    (hsts : a.state = .expectingHeader ∨ a.state = .aligningData 0 ∨
      a.state = .receivingHeader BLOCK_SIZE true)
    (hbuf : a1.buf.buffered_bytes = List.replicate (2 * BLOCK_SIZE) (0 : UInt8)) :
    ∃ a2, poll_next_entry 8 a = some (.ok (a2, none)) := by
  have hterm : a.state.is_terminal = false := by
    rcases hsts with h | h | h <;> rw [h] <;> rfl
  have hne1 : a1.buf.buffered_bytes ≠ [] := by
    rw [hbuf]
    simp [BLOCK_SIZE]
  have hopen : poll_next_entry 8 a = pollNextEntryLoop 8 a := by
    unfold poll_next_entry
    rw [hterm]
    rfl
  rcases hsts with h | h | h
  · obtain ⟨a2, hstep, hst2, hsrc2, hbuf2⟩ := pnel_step_expecting hfill
      (by rw [fillBuf_state hfill]; exact h)
    have hfill2 : fillBuf a2 = .ok a2 := fillBuf_nonempty (by rw [hbuf2]; exact hne1)
    obtain ⟨a3, h3⟩ := pnel_eof_rh 5 hfill2 hst2 (by rw [hbuf2]; exact hbuf)
    refine ⟨a3, ?_⟩
    rw [hopen, show (8 : Nat) = 7 + 1 from rfl, hstep,
      show (7 : Nat) = 5 + 1 + 1 from rfl, h3]
  · obtain ⟨a2, hstep, hst2, hsrc2, hbuf2⟩ := pnel_step_align hfill
      (by rw [fillBuf_state hfill]; exact h)
    have hfill2 : fillBuf a2 = .ok a2 := fillBuf_nonempty (by rw [hbuf2]; exact hne1)
    obtain ⟨a3, hstep3, hst3, hsrc3, hbuf3⟩ := pnel_step_expecting hfill2 hst2
    have hfill3 : fillBuf a3 = .ok a3 := fillBuf_nonempty (by
      rw [hbuf3, hbuf2]
      exact hne1)
    obtain ⟨a4, h4⟩ := pnel_eof_rh 4 hfill3 hst3 (by rw [hbuf3, hbuf2]; exact hbuf)
    refine ⟨a4, ?_⟩
    rw [hopen, show (8 : Nat) = 7 + 1 from rfl, hstep,
      show (7 : Nat) = 6 + 1 from rfl, hstep3,
      show (6 : Nat) = 4 + 1 + 1 from rfl, h4]
  · obtain ⟨a2, h2⟩ := pnel_eof_rh 6 hfill
      (by rw [fillBuf_state hfill]; exact h) hbuf
    refine ⟨a2, ?_⟩
    rw [hopen, show (8 : Nat) = 6 + 1 + 1 from rfl, h2]

theorem ra_step {fuel : Nat} {a a1 a2 : RArchive} {hd : Header}
    {bytes : List UInt8} {acc : List (Header × List UInt8)}
    (hpne : poll_next_entry 8 a = some (.ok (a1, some hd)))
    (hred : read_entry_data 8 a1 hd [] = some (.ok (a2, bytes))) :
    read_archive (fuel + 1) a acc = read_archive fuel a2 (acc ++ [(hd, bytes)]) := by
  simp only [read_archive]
  rw [hpne]
  dsimp only
  rw [hred]

theorem ra_eof {fuel : Nat} {a a2 : RArchive} {acc : List (Header × List UInt8)}
    (hpne : poll_next_entry 8 a = some (.ok (a2, none))) :
    read_archive (fuel + 1) a acc = some (.ok acc) := by
  simp only [read_archive]
  rw [hpne]

/-- The whole read loop over the canonical stream of an entry sequence:
each entry is reproduced exactly, and the trailing zero blocks end the
archive. -/
theorem read_archive_eval :
    ∀ (es : List (Header × List UInt8)) (a a1 : RArchive)
      (acc : List (Header × List UInt8)),
      (∀ x ∈ es, ValidEntry x) →
      fillBuf a = .ok a1 →
      (a.state = .expectingHeader ∨ a.state = .aligningData 0 ∨
        a.state = .receivingHeader BLOCK_SIZE true) →
      a1.buf.buffered_bytes =
        (es.map entryBytes).flatten ++ List.replicate (2 * BLOCK_SIZE) (0 : UInt8) →
      read_archive (es.length + 1) a acc = some (.ok (acc ++ es)) := by
  intro es
  induction es with
  | nil =>
    intro a a1 acc hv hfill hsts hbuf
    simp only [List.map_nil, List.flatten_nil, List.nil_append] at hbuf
    obtain ⟨a2, h2⟩ := poll_next_entry_eof hfill hsts hbuf
    rw [show ([] : List (Header × List UInt8)).length + 1 = 0 + 1 from rfl,
      ra_eof h2, List.append_nil]
  | cons e es ih =>
    intro a a1 acc hv hfill hsts hbuf
    have hR : (es.map entryBytes).flatten ++
        List.replicate (2 * BLOCK_SIZE) (0 : UInt8) ≠ [] := by
      intro hcon
      obtain ⟨-, h2⟩ := List.append_eq_nil.mp hcon
      simp [BLOCK_SIZE] at h2
    have hbuf' : a1.buf.buffered_bytes = entryBytes e ++
        ((es.map entryBytes).flatten ++
          List.replicate (2 * BLOCK_SIZE) (0 : UInt8)) := by
      rw [hbuf]
      simp only [List.map_cons, List.flatten_cons, List.append_assoc]
    obtain ⟨a2, hpne, hst2, hsrc2, hbuf2⟩ :=
      poll_next_entry_entry (hv e (by simp)) hfill hsts hbuf'
    obtain ⟨a3, hred, hsrc3, hbuf3, hst3⟩ :=
      read_entry_data_eval (hv e (by simp)) hst2 hbuf2 hR []
    rw [List.nil_append] at hred
    have hfill3 : fillBuf a3 = .ok a3 := fillBuf_nonempty (by rw [hbuf3]; exact hR)
    have hsts3 : a3.state = .expectingHeader ∨ a3.state = .aligningData 0 ∨
        a3.state = .receivingHeader BLOCK_SIZE true := by
      rcases hst3 with h | h
      · exact Or.inr (Or.inr h)
      · exact Or.inr (Or.inl h)
    have hrec := ih a3 a3 (acc ++ [(e.1, e.2)])
      (fun x hx => hv x (by simp [hx])) hfill3 hsts3 hbuf3
    rw [show (e :: es).length + 1 = (es.length + 1) + 1 from by simp,
      ra_step hpne hred, hrec]
    simp

/-- The first fill of a fresh reader with capacity for the whole stream
buffers the stream in one read. -/
theorem fillBuf_initial {capR : Nat} {stream : List UInt8}
    (hc : stream.length ≤ capR) (h0 : stream ≠ []) :
    ∃ a1, fillBuf ⟨Buf.new capR, .expectingHeader, stream⟩ = .ok a1 ∧
      a1.state = .expectingHeader ∧ a1.buf.buffered_bytes = stream := by
  unfold fillBuf
  rw [if_pos (show (Buf.new capR).buffered_bytes = [] from by
    simp [Buf.new, Buf.buffered_bytes])]
  dsimp only
  rw [show (Buf.new capR).capacity - (Buf.new capR).cap = capR from by
    simp [Buf.new, Buf.capacity]]
  rw [List.take_of_length_le hc]
  rw [if_neg (show ¬stream.length = 0 from by
    intro hcon
    exact h0 (List.eq_nil_of_length_eq_zero hcon))]
  refine ⟨_, rfl, rfl, ?_⟩
  show ((Buf.new capR).fill stream).2.buffered_bytes = stream
  unfold Buf.new Buf.fill Buf.buffered_bytes
  dsimp only
  rw [List.length_replicate, Nat.sub_zero, Nat.min_eq_left hc, List.take_zero,
    List.nil_append, Nat.zero_add, List.take_length, List.drop_zero]
  exact List.take_left' rfl

/-- `readArchive` over the canonical stream of a valid entry sequence
reproduces the sequence. -/
theorem readArchive_eval {entries : List (Header × List UInt8)} {capR : Nat}
    (hv : ∀ x ∈ entries, ValidEntry x)
    (hcap : (streamOf entries).length ≤ capR) :
    readArchive (entries.length + 1) capR (streamOf entries) =
      some (.ok entries) := by
  have h0 : streamOf entries ≠ [] := by
    unfold streamOf
    intro hcon
    obtain ⟨-, h2⟩ := List.append_eq_nil.mp hcon
    simp [BLOCK_SIZE] at h2
  obtain ⟨a1, hfill, hst1, hbuf1⟩ := fillBuf_initial hcap h0
  unfold readArchive
  exact (read_archive_eval entries _ a1 [] hv hfill (Or.inl rfl)
    (by rw [hbuf1]; rfl)).trans (by simp)

/-- A concrete valid size-zero header block: the size field holds `0`
and the checksum field holds the octal text `400` (256, the computed
checksum of a block that is zero outside its checksum field). -/
def wHdrBytes : List UInt8 :=
  List.replicate 148 0 ++ [52, 48, 48, 0, 0, 0, 0, 0] ++ List.replicate 356 0

/-- C1: Round trip. For every finite sequence of entries with valid
finalized headers — each header block is 512 bytes, not all zero,
carries the payload length in its size field and reparses to itself —
writing them through `add_entry` / a full entry write / the entry
shutdown and `finish` produces exactly the canonical TAR stream, and
reading that stream back through `next_entry` / entry reads yields the
same sequence of (header, payload-bytes) pairs byte-for-byte, for any
writer buffer with room for each entry and the EOF blocks and any
reader buffer with room for the stream. -/
theorem write_read_round_trip (entries : List (Header × List UInt8))
    (capW capR : Nat)
    (hval : ∀ e ∈ entries, ValidEntry e)
    (hroomW : ∀ e ∈ entries, BLOCK_SIZE + e.2.length + padLen e.2.length ≤ capW)
    (hW : 2 * BLOCK_SIZE ≤ capW)
    (hR : (streamOf entries).length ≤ capR) :
    writeArchive capW entries = some (.ok (streamOf entries)) ∧
    readArchive (entries.length + 1) capR (streamOf entries) =
      some (.ok entries) :=
  ⟨writeArchive_eval hval hroomW hW, readArchive_eval hval hR⟩

/-- Witness for C1 at a concrete one-entry archive. -/
theorem write_read_round_trip_witness :
    writeArchive 1536 [(⟨wHdrBytes⟩, [])] =
      some (.ok (streamOf [(⟨wHdrBytes⟩, [])])) ∧
    readArchive 2 1536 (streamOf [(⟨wHdrBytes⟩, [])]) =
      some (.ok [(⟨wHdrBytes⟩, [])]) :=
  write_read_round_trip [(⟨wHdrBytes⟩, [])] 1536 1536 (by decide) (by decide)
    (by decide) (by decide)

theorem take_slices_replay_witness :
    ∃ s'', State.take_slices (.receivingData 4)
        ((take_front [[1, 2], [3, 4]] 3).iter_buffers) none = .ok (s'', 3) ∧
      (3 = bytes_len ([[1, 2], [3, 4]] : List (List UInt8)) → s'' = .receivedData) :=
  take_slices_replay (.receivingData 4) none [[1, 2], [3, 4]] .receivedData
    (by decide) 3 (by decide)

end Tario
